import Mathlib

/-
Verification of the bubble-scoped variant-calling engine of rs-gfa-utils.

The definitions below are a shallow embedding of src/src/variants.rs,
src/src/variants/vcf.rs, src/src/commands/gfa2vcf.rs and
src/src/commands/saboten.rs.  Byte strings are lists of naturals, Rust
hash maps are association lists with insert-or-replace semantics
(HashMap insert and collect overwrite the value stored at an existing
key), and every operation that can panic in Rust (failed lookup and
unwrap, index out of bounds, usize subtraction underflow) is modelled
as an Option/Except failure.
-/

namespace GfaUtils

/-- Byte strings (Rust BString / &[u8]) as lists of naturals. -/
abbrev Bytes := List Nat

/-- Orientation of a path step (gfa crate Orientation). -/
inductive Orient where
  | fwd : Orient
  | rev : Orient
deriving DecidableEq, Repr

/-- From impl of bool for Orientation in the gfa crate: Forward maps to true. -/
def Orient.toBool : Orient → Bool
  | .fwd => true
  | .rev => false

/-- PathStep = (node id, cumulative base offset, orientation), as in variants.rs. -/
abbrev PathStep := Nat × Nat × Orient

/-- PathData from variants.rs: segment sequences, path names, path steps. -/
structure PathData where
  segment_map : List (Nat × Bytes)
  path_names : List Bytes
  paths : List (List PathStep)

/-- Association-list lookup, modelling HashMap::get (first matching key). -/
def alookup {α β : Type} [DecidableEq α] : List (α × β) → α → Option β
  | [], _ => none
  | e :: rest, k => if e.1 = k then some e.2 else alookup rest k

/-- Association-list insert-or-replace, modelling HashMap::insert. -/
def assocSet {α β : Type} [DecidableEq α] : List (α × β) → α → β → List (α × β)
  | [], k, v => [(k, v)]
  | e :: rest, k, v => if e.1 = k then (k, v) :: rest else e :: assocSet rest k v

/-- VariantKey from variants.rs. -/
structure VariantKey where
  ref_name : Bytes
  sequence : Bytes
  pos : Nat
deriving DecidableEq, Repr

/-- Variant from variants.rs. -/
inductive Variant where
  | del : Bytes → Variant
  | ins : Bytes → Variant
  | snv : Nat → Variant
  | mnp : Bytes → Variant
deriving DecidableEq, Repr

/-- The variant map FnvHashMap of VariantKey to FnvHashSet of Variant,
as an association list whose values are duplicate-free lists. -/
abbrev VarMap := List (VariantKey × List Variant)

/-- HashSet::insert: add the value only when it is absent. -/
def setInsert (s : List Variant) (v : Variant) : List Variant :=
  if v ∈ s then s else s ++ [v]

/-- variants.entry(key).or_default().insert(variant). -/
def mapInsert : VarMap → VariantKey → Variant → VarMap
  | [], k, v => [(k, [v])]
  | e :: rest, k, v =>
      if e.1 = k then (e.1, setInsert e.2 v) :: rest else e :: mapInsert rest k v

/-- HashMap::extend: replace each key's whole value set by the incoming one. -/
def mapExtend (m : VarMap) (vars : VarMap) : VarMap :=
  vars.foldl (fun acc e => assocSet acc e.1 e.2) m

/-- The loop of detect_variants_against_ref (variants.rs lines 515-645).
Fuel counts the remaining loop iterations; the top-level entry point
supplies enough fuel for the loop to reach its exit condition. -/
def dvarLoop (segs : List (Nat × Bytes)) (refName : Bytes)
    (refPath queryPath : List PathStep) :
    Nat → Nat → Nat → VarMap → Option VarMap
  | 0, refIx, queryIx, acc =>
      if refPath.length ≤ refIx ∨ queryPath.length ≤ queryIx then some acc
      else none
  | fuel + 1, refIx, queryIx, acc =>
      if refPath.length ≤ refIx ∨ queryPath.length ≤ queryIx then some acc
      else do
        let step ← refPath.get? refIx
        let refSeq ← alookup segs step.1
        let qstep ← queryPath.get? queryIx
        let querySeq ← alookup segs qstep.1
        if step.1 = qstep.1 then
          dvarLoop segs refName refPath queryPath fuel (refIx + 1) (queryIx + 1) acc
        else if refPath.length ≤ refIx + 1 ∨ queryPath.length ≤ queryIx + 1 then
          some acc
        else do
          let nstep ← refPath.get? (refIx + 1)
          let nqstep ← queryPath.get? (queryIx + 1)
          if nstep.1 = qstep.1 then do
            -- Deletion
            let prev ← refPath.get? (if refIx = 0 then refIx else refIx - 1)
            let prevSeq ← alookup segs prev.1
            let lastPrev ← prevSeq.getLast?
            if step.2.1 = 0 then none
            else
              dvarLoop segs refName refPath queryPath fuel (refIx + 1) queryIx
                (mapInsert acc ⟨refName, lastPrev :: refSeq, step.2.1 - 1⟩
                  (Variant.del [lastPrev]))
          else if nqstep.1 = step.1 then do
            -- Insertion
            let prev ← refPath.get? (if refIx = 0 then refIx else refIx - 1)
            let prevSeq ← alookup segs prev.1
            let lastPrev ← prevSeq.getLast?
            if step.2.1 = 0 then none
            else
              dvarLoop segs refName refPath queryPath fuel refIx (queryIx + 1)
                (mapInsert acc ⟨refName, [lastPrev], step.2.1 - 1⟩
                  (Variant.ins (lastPrev :: querySeq)))
          else
            if refSeq ≠ querySeq then do
              let v ← if refSeq.length = 1
                then (querySeq.getLast?).map Variant.snv
                else some (Variant.mnp querySeq)
              dvarLoop segs refName refPath queryPath fuel (refIx + 1) (queryIx + 1)
                (mapInsert acc ⟨refName, refSeq, step.2.1⟩ v)
            else
              dvarLoop segs refName refPath queryPath fuel (refIx + 1) (queryIx + 1) acc

/-- detect_variants_against_ref from variants.rs.  A none result models a
panic of the Rust code (failed segment lookup, empty sequence, or usize
underflow in the position subtraction). -/
def detect_variants_against_ref (segs : List (Nat × Bytes)) (refName : Bytes)
    (refPath queryPath : List PathStep) : Option VarMap :=
  dvarLoop segs refName refPath queryPath
    (refPath.length + queryPath.length + 1) 0 0 []

/-- The VariantHandler trait of variants.rs: callbacks receive the mutable
handler state and the indices (ref_ix, query_ix, ref_seq_ix, query_seq_ix). -/
structure VariantHandler (σ : Type) where
  deletion : σ → Nat → Nat → Nat → Nat → Option σ
  insertion : σ → Nat → Nat → Nat → Nat → Option σ
  mismatch : σ → Nat → Nat → Nat → Nat → Option σ
  matchStep : σ → Nat → Nat → Nat → Nat → Option σ

/-- The loop of detect_variants_against_ref_with (variants.rs lines 194-263). -/
def dvarWithLoop {σ : Type} (segs : List (Nat × Bytes))
    (refPath queryPath : List PathStep) (H : VariantHandler σ) :
    Nat → Nat → Nat → σ → Option σ
  | 0, refIx, queryIx, st =>
      if refPath.length ≤ refIx ∨ queryPath.length ≤ queryIx then some st
      else none
  | fuel + 1, refIx, queryIx, st =>
      if refPath.length ≤ refIx ∨ queryPath.length ≤ queryIx then some st
      else do
        let step ← refPath.get? refIx
        let refSeq ← alookup segs step.1
        let qstep ← queryPath.get? queryIx
        let querySeq ← alookup segs qstep.1
        if step.1 = qstep.1 then
          dvarWithLoop segs refPath queryPath H fuel (refIx + 1) (queryIx + 1) st
        else if refPath.length ≤ refIx + 1 ∨ queryPath.length ≤ queryIx + 1 then
          some st
        else do
          let nstep ← refPath.get? (refIx + 1)
          let nqstep ← queryPath.get? (queryIx + 1)
          if nstep.1 = qstep.1 then do
            let st' ← H.deletion st refIx queryIx step.2.1 qstep.2.1
            dvarWithLoop segs refPath queryPath H fuel (refIx + 1) queryIx st'
          else if nqstep.1 = step.1 then do
            let st' ← H.insertion st refIx queryIx step.2.1 qstep.2.1
            dvarWithLoop segs refPath queryPath H fuel refIx (queryIx + 1) st'
          else
            if refSeq ≠ querySeq then do
              let st' ← H.mismatch st refIx queryIx step.2.1 qstep.2.1
              dvarWithLoop segs refPath queryPath H fuel (refIx + 1) (queryIx + 1) st'
            else do
              let st' ← H.matchStep st refIx queryIx step.2.1 qstep.2.1
              dvarWithLoop segs refPath queryPath H fuel (refIx + 1) (queryIx + 1) st'

/-- VCFVariantHandler::deletion (variants.rs lines 294-329). -/
def vcfDeletion (segs : List (Nat × Bytes)) (refName : Bytes)
    (refPath : List PathStep) (st : VarMap)
    (refIx _queryIx refSeqIx _querySeqIx : Nat) : Option VarMap := do
  let step ← refPath.get? refIx
  let refSeq ← alookup segs step.1
  let prev ← refPath.get? (if refIx = 0 then refIx else refIx - 1)
  let prevSeq ← alookup segs prev.1
  let lastPrev ← prevSeq.getLast?
  if refSeqIx = 0 then none
  else
    some (mapInsert st ⟨refName, lastPrev :: refSeq, refSeqIx - 1⟩
      (Variant.del [lastPrev]))

/-- VCFVariantHandler::insertion (variants.rs lines 331-365). -/
def vcfInsertion (segs : List (Nat × Bytes)) (refName : Bytes)
    (refPath queryPath : List PathStep) (st : VarMap)
    (refIx queryIx refSeqIx _querySeqIx : Nat) : Option VarMap := do
  let qstep ← queryPath.get? queryIx
  let querySeq ← alookup segs qstep.1
  let prev ← refPath.get? (if refIx = 0 then refIx else refIx - 1)
  let prevSeq ← alookup segs prev.1
  let lastPrev ← prevSeq.getLast?
  if refSeqIx = 0 then none
  else
    some (mapInsert st ⟨refName, [lastPrev], refSeqIx - 1⟩
      (Variant.ins (lastPrev :: querySeq)))

/-- VCFVariantHandler::mismatch (variants.rs lines 367-397). -/
def vcfMismatch (segs : List (Nat × Bytes)) (refName : Bytes)
    (refPath queryPath : List PathStep) (st : VarMap)
    (refIx queryIx refSeqIx _querySeqIx : Nat) : Option VarMap := do
  let step ← refPath.get? refIx
  let refSeq ← alookup segs step.1
  let qstep ← queryPath.get? queryIx
  let querySeq ← alookup segs qstep.1
  let v ← if refSeq.length = 1
    then (querySeq.getLast?).map Variant.snv
    else some (Variant.mnp querySeq)
  some (mapInsert st ⟨refName, refSeq, refSeqIx⟩ v)

/-- The VCFVariantHandler bundle (variants.rs lines 293-407). -/
def vcfHandler (segs : List (Nat × Bytes)) (refName : Bytes)
    (refPath queryPath : List PathStep) : VariantHandler VarMap :=
  ⟨fun st refIx queryIx refSeqIx querySeqIx =>
      vcfDeletion segs refName refPath st refIx queryIx refSeqIx querySeqIx,
   fun st refIx queryIx refSeqIx querySeqIx =>
      vcfInsertion segs refName refPath queryPath st refIx queryIx refSeqIx querySeqIx,
   fun st refIx queryIx refSeqIx querySeqIx =>
      vcfMismatch segs refName refPath queryPath st refIx queryIx refSeqIx querySeqIx,
   fun st _ _ _ _ => some st⟩

/-- detect_variants_against_ref_ (variants.rs lines 412-433): the handler
driven implementation. -/
def detect_variants_against_ref_ (segs : List (Nat × Bytes)) (refName : Bytes)
    (refPath queryPath : List PathStep) : Option VarMap :=
  dvarWithLoop segs refPath queryPath (vcfHandler segs refName refPath queryPath)
    (refPath.length + queryPath.length + 1) 0 0 []

/-- sub_path_edge_orient (variants.rs lines 647-653); unwrap of first and
last step is a panic on an empty sub-path, modelled as none. -/
def sub_path_edge_orient (path : List PathStep) : Option (Orient × Orient) := do
  let f ← path.head?
  let l ← path.getLast?
  some (f.2.2, l.2.2)

/-- VariantConfig (variants.rs lines 655-658). -/
structure VariantConfig where
  ignore_inverted_paths : Bool
deriving DecidableEq, Repr

/-- VariantConfig::ignore_path (variants.rs lines 660-673). -/
def VariantConfig.ignore_path (c : VariantConfig)
    (refOrient queryOrient : Orient × Orient) : Bool :=
  c.ignore_inverted_paths && decide (refOrient ≠ queryOrient)

/-- List enumeration with a starting index, modelling iter().enumerate(). -/
def enumL {α : Type} : Nat → List α → List (Nat × α)
  | _, [] => []
  | k, x :: xs => (k, x) :: enumL (k + 1) xs

/-- The inclusive slice path[lo..=hi].  For hi < path.length this is
exactly the Rust slice; Rust panics when hi is out of bounds, a case
unreachable from indices recorded by the bubble index. -/
def sliceIncl (path : List PathStep) (lo hi : Nat) : List PathStep :=
  (path.drop lo).take (hi + 1 - lo)

/-- path_data_sub_paths (variants.rs lines 685-713). -/
def path_data_sub_paths (pd : PathData)
    (pathIndices : List (Nat × List (Nat × Nat))) (f t : Nat) :
    Option (List (Nat × List PathStep)) := do
  let fromIndices ← alookup pathIndices f
  let toIndices ← alookup pathIndices t
  some ((enumL 0 pd.paths).filterMap fun pp => do
    let fromIx ← alookup fromIndices pp.1
    let toIx ← alookup toIndices pp.1
    let sub := sliceIncl pp.2 (min fromIx toIx) (max fromIx toIx)
    if 2 < sub.length then some (pp.1, sub) else none)

/-- Three-way comparison on Nat. -/
def natCmp (a b : Nat) : Ordering :=
  if a < b then .lt else if a = b then .eq else .gt

/-- Three-way comparison on Bool (false before true, as in Rust Ord). -/
def boolCmp (a b : Bool) : Ordering :=
  match a, b with
  | false, true => .lt
  | true, false => .gt
  | _, _ => .eq

/-- Lexicographic comparison of lists, as Rust Iterator::cmp. -/
def listCmp {α : Type} (cmp : α → α → Ordering) : List α → List α → Ordering
  | [], [] => .eq
  | [], _ :: _ => .lt
  | _ :: _, [] => .gt
  | x :: xs, y :: ys =>
      match cmp x y with
      | .eq => listCmp cmp xs ys
      | o => o

/-- The step comparison used to sort query sub-paths
(variants.rs lines 730-734): (node id, offset, bool of orientation). -/
def stepCmp (a b : PathStep) : Ordering :=
  match natCmp a.1 b.1 with
  | .eq =>
      match natCmp a.2.1 b.2.1 with
      | .eq => boolCmp a.2.2.toBool b.2.2.toBool
      | o => o
  | o => o

/-- Stable insertion into a comparator-sorted list: the new element goes
before the first element it does not strictly exceed. -/
def insCmp {α : Type} (cmp : α → α → Ordering) (x : α) : List α → List α
  | [] => [x]
  | y :: ys =>
      match cmp x y with
      | .gt => y :: insCmp cmp x ys
      | _ => x :: y :: ys

/-- Stable sort by comparator (insertion sort); agrees with Rust's stable
slice::sort_by for any total preorder comparator. -/
def sortC {α : Type} (cmp : α → α → Ordering) : List α → List α
  | [] => []
  | x :: xs => insCmp cmp x (sortC cmp xs)

/-- Adjacent deduplication tail: drop elements equivalent to the kept
predecessor, as Vec::dedup_by. -/
def dedupRest {α : Type} (eqv : α → α → Bool) : α → List α → List α
  | _, [] => []
  | prev, y :: ys =>
      if eqv prev y then dedupRest eqv prev ys else y :: dedupRest eqv y ys

/-- Vec::dedup_by: keep the first element of every run of equivalent
consecutive elements. -/
def dedupAdjBy {α : Type} (eqv : α → α → Bool) : List α → List α
  | [] => []
  | x :: xs => x :: dedupRest eqv x xs

/-- The is_ref_path closure of detect_variants_in_sub_paths
(variants.rs lines 738-744). -/
def is_ref_path (refNames : Option (List Bytes)) (p : Bytes) : Bool :=
  match refNames with
  | some ns => decide (p ∈ ns)
  | none => true

/-- The inner query loop of detect_variants_in_sub_paths
(variants.rs lines 756-772), run for one reference sub-path.  The Rust
question-mark on path_names.get aborts the whole reference closure, so
the fold is Option-valued. -/
def processRef (config : VariantConfig) (segs : List (Nat × Bytes))
    (names : List Bytes) (refName : Bytes) (refPath : List PathStep)
    (refOrient : Orient × Orient) :
    List (Nat × List PathStep) → VarMap → Option VarMap
  | [], m => some m
  | q :: rest, m => do
      let qname ← names.get? q.1
      let qorient ← sub_path_edge_orient q.2
      let m' ←
        if qname ≠ refName ∧ ¬ (config.ignore_path refOrient qorient = true) then
          (detect_variants_against_ref segs refName refPath q.2).map
            (fun vars => mapExtend m vars)
        else some m
      processRef config segs names refName refPath refOrient rest m'

/-- detect_variants_in_sub_paths (variants.rs lines 715-779). -/
def detect_variants_in_sub_paths (config : VariantConfig) (pd : PathData)
    (refNames : Option (List Bytes))
    (pathIndices : List (Nat × List (Nat × Nat))) (f t : Nat) :
    Option (List (Bytes × VarMap)) := do
  let subPaths ← path_data_sub_paths pd pathIndices f t
  let queryPaths :=
    dedupAdjBy (fun a b => decide (a.2 = b.2)) (sortC (fun a b => listCmp stepCmp a.2 b.2) subPaths)
  let entries := subPaths.filterMap fun rp => do
    let refName ← pd.path_names.get? rp.1
    if is_ref_path refNames refName = true then do
      let refOrient ← sub_path_edge_orient rp.2
      let refMap ← processRef config pd.segment_map pd.path_names refName rp.2
        refOrient queryPaths []
      some (refName, refMap)
    else none
  some (entries.foldl (fun acc e => assocSet acc e.1 e.2) [])

/-- Phase 1 scan of bubble_path_indices (variants.rs lines 92-103):
record (boundary node, step index) for every step whose node is a
boundary node; collect into a hash map, so a later index overwrites an
earlier one for the same node. -/
def pathScan (vs : List Nat) : List PathStep → Nat → List (Nat × Nat) → List (Nat × Nat)
  | [], _, m => m
  | s :: rest, ix, m =>
      pathScan vs rest (ix + 1) (if s.1 ∈ vs then assocSet m s.1 ix else m)

/-- The per-path node index map of bubble_path_indices phase 1. -/
def pathNodeIndices (vs : List Nat) (path : List PathStep) : List (Nat × Nat) :=
  pathScan vs path 0 []

/-- bubble_path_indices (variants.rs lines 79-130): phase 2 transposes the
per-path maps into a map keyed by boundary node. -/
def bubble_path_indices (paths : List (List PathStep)) (vs : List Nat) :
    List (Nat × List (Nat × Nat)) :=
  vs.map fun n =>
    (n, (enumL 0 paths).filterMap fun pp =>
      (alookup (pathNodeIndices vs pp.2) n).map fun i => (pp.1, i))

/-- Lookup of a (boundary node, path index) entry in the bubble index. -/
def bpiLookup (idx : List (Nat × List (Nat × Nat))) (n p : Nat) : Option Nat :=
  (alookup idx n).bind fun inner => alookup inner p

/-- VCFRecord (variants/vcf.rs lines 11-23). -/
structure VCFRecord where
  chromosome : Bytes
  position : Int
  id : Option Bytes
  reference : Bytes
  alternate : Option Bytes
  quality : Option Int
  filter : Option Bytes
  info : Option Bytes
  format : Option Bytes
  sample_name : Option Bytes
deriving DecidableEq, Repr

/-- Byte-wise lexicographic comparison (Ord on BString). -/
def bytesCmp : Bytes → Bytes → Ordering
  | [], [] => .eq
  | [], _ :: _ => .lt
  | _ :: _, [] => .gt
  | x :: xs, y :: ys =>
      match natCmp x y with
      | .eq => bytesCmp xs ys
      | o => o

/-- Three-way comparison on Int. -/
def intCmp (a b : Int) : Ordering :=
  if a < b then .lt else if a = b then .eq else .gt

/-- VCFRecord::vcf_cmp (variants/vcf.rs lines 26-35): chromosome bytes,
then position. -/
def VCFRecord.vcf_cmp (a b : VCFRecord) : Ordering :=
  match bytesCmp a.chromosome b.chromosome with
  | .eq => intCmp a.position b.position
  | o => o

/-- The (alternate allele, type tag) pair of one Variant
(variants.rs lines 831-840); tags are the byte strings del, ins, snv, mnp. -/
def variantTypeTag : Variant → Bytes × Bytes
  | .del s => (s, [100, 101, 108])
  | .ins s => (s, [105, 110, 115])
  | .snv b => ([b], [115, 110, 118])
  | .mnp s => (s, [109, 110, 112])

/-- bstr::join: interleave the separator between the parts. -/
def bytesJoin (sep : Bytes) : List Bytes → Bytes
  | [] => []
  | x :: xs => x ++ xs.flatMap (fun y => sep ++ y)

/-- The TYPE= prefix bytes. -/
def typeTagPfx : Bytes := [84, 89, 80, 69, 61]

/-- variant_vcf_record (variants.rs lines 822-866): one record per
variant key, alternate alleles comma-joined, TYPE tags joined with
a semicolon and repeated prefix. -/
def variant_vcf_record (variants : List (Bytes × VarMap)) : List VCFRecord :=
  variants.flatMap fun e =>
    e.2.map fun kv =>
      let pairs := kv.2.map variantTypeTag
      let alts := bytesJoin [44] (pairs.map (fun p => p.1))
      let types := typeTagPfx ++ bytesJoin ([59] ++ typeTagPfx) (pairs.map (fun p => p.2))
      ⟨kv.1.ref_name, Int.ofNat kv.1.pos, none, kv.1.sequence,
        some alts, none, none, some types, none, none⟩

/-- The final record pass of gfa2vcf (commands/gfa2vcf.rs lines 172-173):
stable sort by vcf_cmp, then Vec::dedup, which removes only consecutive
equal records. -/
def assembleRecords (records : List VCFRecord) : List VCFRecord :=
  dedupAdjBy (fun a b => decide (a = b))
    (sortC VCFRecord.vcf_cmp records)

/-- Errors of load_ultrabubbles: a line with a missing field, or a field
that does not parse as u64. -/
inductive UBError where
  | missingField : UBError
  | badNumber : UBError
deriving DecidableEq, Repr

/-- Split a byte line at tab bytes, as bstr split_str on a tab;
splitting an empty line yields one empty field. -/
def splitTab : Bytes → List Bytes
  | [] => [[]]
  | c :: rest =>
      let r := splitTab rest
      if c = 9 then [] :: r
      else
        match r with
        | f :: fs => (c :: f) :: fs
        | [] => [[c]]

/-- str::parse::<u64>: optional leading plus sign, at least one digit,
all digits, value below 2^64. -/
def parseU64 (s : Bytes) : Option Nat :=
  let digits := match s with
    | 43 :: rest => rest
    | _ => s
  if digits = [] then none
  else if digits.all (fun c => 48 ≤ c && c ≤ 57) then
    let v := digits.foldl (fun a c => a * 10 + (c - 48)) 0
    if v < 2 ^ 64 then some v else none
  else none

/-- load_ultrabubbles (commands/saboten.rs lines 112-133), with the input
file already split into byte lines.  Each line must carry two
tab-separated u64 fields; any failure aborts the whole load. -/
def load_ultrabubbles : List Bytes → Except UBError (List (Nat × Nat))
  | [] => .ok []
  | line :: rest =>
      match (splitTab line).get? 0 with
      | none => .error .missingField
      | some startF =>
        match parseU64 startF with
        | none => .error .badNumber
        | some start =>
          match (splitTab line).get? 1 with
          | none => .error .missingField
          | some endF =>
            match parseU64 endF with
            | none => .error .badNumber
            | some endV =>
              match load_ultrabubbles rest with
              | .error e => .error e
              | .ok tail => .ok ((start, endV) :: tail)

/-- The step materializer of gfa_path_data (variants.rs lines 55-64): a
scan that starts the offset at one and advances it by each segment's
length; a missing segment is a panic, modelled as none. -/
def materializeSteps (segMap : List (Nat × Bytes)) :
    List (Nat × Orient) → Nat → Option (List PathStep)
  | [], _ => some []
  | (node, o) :: rest, offset => do
      let seq ← alookup segMap node
      let tail ← materializeSteps segMap rest (offset + seq.length)
      some ((node, offset, o) :: tail)

/-- Decidable form of the C10 segment precondition for one step: the
step's node maps to a non-empty sequence. -/
def segOkB (segs : List (Nat × Bytes)) (s : PathStep) : Bool :=
  match alookup segs s.1 with
  | some q => decide (q ≠ [])
  | none => false

/-- The contribution of a single query sub-path to the per-reference
variant map at one key: the value its diff run stores under the key,
when the pair is eligible, none otherwise.  Mirrors the guard of the
query loop of detect_variants_in_sub_paths. -/
def queryContrib (config : VariantConfig) (segs : List (Nat × Bytes))
    (names : List Bytes) (refName : Bytes) (refPath : List PathStep)
    (refOrient : Orient × Orient) (k : VariantKey)
    (q : Nat × List PathStep) : Option (List Variant) :=
  match names.get? q.1, sub_path_edge_orient q.2 with
  | some qn, some qo =>
      if qn ≠ refName ∧ ¬ (config.ignore_path refOrient qo = true) then
        (detect_variants_against_ref segs refName refPath q.2).bind
          fun vars => alookup vars k
      else none
  | _, _ => none

/-- Index of the last step of a path whose node id is the given one. -/
def lastOcc (n : Nat) : List PathStep → Option Nat
  | [] => none
  | s :: rest =>
      match lastOcc n rest with
      | some j => some (j + 1)
      | none => if s.1 = n then some 0 else none

/-! Concrete instances used by counterexamples and witnesses.  The graph
has segments 1 to 5 with sequences A, G, C, T, C and three paths through
the bubble with boundary nodes 1 and 3: the reference r traverses
1,2,3 and the query paths a and b traverse 1,4,3 and 1,5,3. -/

/-- Segment sequences of the concrete example graph. -/
def exSegs : List (Nat × Bytes) := [(1, [65]), (2, [71]), (3, [67]), (4, [84]), (5, [67])]

/-- Steps of path r. -/
def exP0 : List PathStep := [(1, 1, .fwd), (2, 2, .fwd), (3, 3, .fwd)]

/-- Steps of path a. -/
def exP1 : List PathStep := [(1, 1, .fwd), (4, 2, .fwd), (3, 3, .fwd)]

/-- Steps of path b. -/
def exP2 : List PathStep := [(1, 1, .fwd), (5, 2, .fwd), (3, 3, .fwd)]

/-- Path names r, a, b of the example graph. -/
def exNames : List Bytes := [[114], [97], [98]]

/-- PathData of the example graph. -/
def exPathData : PathData := ⟨exSegs, exNames, [exP0, exP1, exP2]⟩

/-- Bubble index of the example graph for boundary nodes 1 and 3. -/
def exIdx : List (Nat × List (Nat × Nat)) := bubble_path_indices exPathData.paths [1, 3]

/-- Default variant configuration (ignore inverted paths). -/
def exConfig : VariantConfig := ⟨true⟩

/-- The variant key at which both example queries call a substitution. -/
def exKey : VariantKey := ⟨[114], [71], 2⟩

/-- The canonical (sorted, deduplicated) query list of the example bubble. -/
def exQueries : List (Nat × List PathStep) := [(0, exP0), (1, exP1), (2, exP2)]

/-- A query sub-path that leaves the example bubble reversed. -/
def exPInv : List PathStep := [(1, 1, .fwd), (4, 2, .fwd), (3, 3, .rev)]

/-- Segments of the mismatch counterexample: 1 maps to A, 2 to A, 3 to CT,
4 to G; the reference node 2 carries one byte while the aligned query
node 3 carries two. -/
def mmSegs : List (Nat × Bytes) := [(1, [65]), (2, [65]), (3, [67, 84]), (4, [71])]

/-- Reference sub-path of the mismatch counterexample. -/
def mmRef : List PathStep := [(1, 1, .fwd), (2, 2, .fwd), (4, 3, .fwd)]

/-- Query sub-path of the mismatch counterexample. -/
def mmQuery : List PathStep := [(1, 1, .fwd), (3, 2, .fwd), (4, 4, .fwd)]

/-- A per-reference variant map holding one deletion call at position 5. -/
def recMapA : List (Bytes × VarMap) := [([99], [(⟨[99], [71, 71], 5⟩, [Variant.del [71]])])]

/-- A per-reference variant map holding one substitution call at position 5. -/
def recMapB : List (Bytes × VarMap) := [([99], [(⟨[99], [65], 5⟩, [Variant.snv 84])])]

/-- The VCF record produced from recMapA. -/
def recA : VCFRecord :=
  ⟨[99], 5, none, [71, 71], some [71], none, none,
    some (typeTagPfx ++ [100, 101, 108]), none, none⟩

/-- The VCF record produced from recMapB. -/
def recB : VCFRecord :=
  ⟨[99], 5, none, [65], some [84], none, none,
    some (typeTagPfx ++ [115, 110, 118]), none, none⟩

/-- Segments of the deletion scenario used by the C10 witness. -/
def wSegs : List (Nat × Bytes) := [(1, [65, 67]), (2, [71]), (3, [84, 84]), (4, [71])]

/-- Reference sub-path of the deletion scenario. -/
def wRef : List PathStep := [(1, 1, .fwd), (2, 3, .fwd), (3, 4, .fwd), (4, 6, .fwd)]

/-- Query sub-path of the deletion scenario. -/
def wQuery : List PathStep := [(1, 1, .fwd), (3, 3, .fwd), (4, 5, .fwd)]

/-! Shared lemmas about the association-list operations. -/

theorem alookup_assocSet {α β : Type} [DecidableEq α]
    (m : List (α × β)) (k k' : α) (v : β) :
    alookup (assocSet m k v) k' = if k = k' then some v else alookup m k' := by
  induction m with
  | nil => simp [assocSet, alookup]
  | cons e rest ih =>
    by_cases h1 : e.1 = k
    · subst h1
      by_cases h2 : e.1 = k' <;> simp [assocSet, alookup, h2]
    · have h1' : ¬ (k = e.1) := fun hh => h1 hh.symm
      by_cases h2 : e.1 = k'
      · subst h2
        have h3 : ¬ (e.1 = e.1 → False) := fun hh => hh rfl
        simp [assocSet, alookup, h1, h1']
      · simp [assocSet, alookup, h1, h2, ih]

theorem alookup_eq_none_of_not_mem_keys {α β : Type} [DecidableEq α]
    (m : List (α × β)) (k : α) (h : k ∉ m.map (fun e => e.1)) :
    alookup m k = none := by
  induction m with
  | nil => rfl
  | cons e rest ih =>
    simp only [List.map_cons, List.mem_cons] at h
    push_neg at h
    have h2 : ¬ (e.1 = k) := fun hh => h.1 hh.symm
    simp only [alookup, if_neg h2]
    exact ih h.2

theorem some_or {α : Type} (a : α) (x : Option α) : (some a).or x = some a := rfl

theorem keysNodup_alookup_or {m vars : VarMap} (k : VariantKey)
    (h : (vars.map (fun e => e.1)).Nodup) :
    alookup (mapExtend m vars) k = (alookup vars k).or (alookup m k) := by
  induction vars generalizing m with
  | nil => simp [mapExtend, alookup, Option.or]
  | cons e rest ih =>
    simp only [List.map_cons, List.nodup_cons] at h
    have hstep : mapExtend m (e :: rest) = mapExtend (assocSet m e.1 e.2) rest := rfl
    rw [hstep, ih h.2, alookup_assocSet]
    by_cases hk : e.1 = k
    · subst hk
      have h3 : alookup rest e.1 = none :=
        alookup_eq_none_of_not_mem_keys rest e.1 h.1
      simp [alookup, h3, Option.or]
    · have hk' : ¬ (k = e.1) := fun hh => hk hh.symm
      simp [alookup, hk, hk']

theorem mem_assocSet {α β : Type} [DecidableEq α]
    {m : List (α × β)} {k : α} {v : β} {e : α × β}
    (h : e ∈ assocSet m k v) : e = (k, v) ∨ e ∈ m := by
  induction m with
  | nil => simpa [assocSet] using h
  | cons f rest ih =>
    by_cases h1 : f.1 = k
    · simp only [assocSet, h1, if_pos rfl] at h
      rcases List.mem_cons.mp h with h2 | h2
      · exact Or.inl h2
      · exact Or.inr (List.mem_cons.mpr (Or.inr h2))
    · simp only [assocSet, h1, if_neg h1] at h
      rcases List.mem_cons.mp h with h2 | h2
      · exact Or.inr (List.mem_cons.mpr (Or.inl h2))
      · rcases ih h2 with h3 | h3
        · exact Or.inl h3
        · exact Or.inr (List.mem_cons.mpr (Or.inr h3))

theorem mem_mapExtend {m vars : VarMap} {e : VariantKey × List Variant}
    (h : e ∈ mapExtend m vars) : e ∈ m ∨ e ∈ vars := by
  induction vars generalizing m with
  | nil => exact Or.inl h
  | cons f rest ih =>
    have step : mapExtend m (f :: rest) = mapExtend (assocSet m f.1 f.2) rest := rfl
    rw [step] at h
    rcases ih h with h2 | h2
    · rcases mem_assocSet h2 with h3 | h3
      · exact Or.inr (List.mem_cons.mpr (Or.inl (by simpa using h3)))
      · exact Or.inl h3
    · exact Or.inr (List.mem_cons.mpr (Or.inr h2))

theorem setInsert_nodup {s : List Variant} {v : Variant} (h : s.Nodup) :
    (setInsert s v).Nodup := by
  unfold setInsert
  by_cases hv : v ∈ s
  · simpa [hv]
  · rw [if_neg hv, List.nodup_append]
    exact ⟨h, List.nodup_singleton v,
      fun a ha hal => hv ((List.mem_singleton.mp hal) ▸ ha)⟩

theorem mem_mapInsert {m : VarMap} {k : VariantKey} {v : Variant}
    {e : VariantKey × List Variant} (h : e ∈ mapInsert m k v) :
    e ∈ m ∨ e = (k, [v]) ∨ ∃ f ∈ m, e = (f.1, setInsert f.2 v) := by
  induction m with
  | nil =>
    simp only [mapInsert, List.mem_singleton] at h
    exact Or.inr (Or.inl h)
  | cons f rest ih =>
    by_cases h1 : f.1 = k
    · simp only [mapInsert, h1, if_pos rfl] at h
      rcases List.mem_cons.mp h with h2 | h2
      · exact Or.inr (Or.inr ⟨f, List.mem_cons_self f rest, by rw [h2, h1]⟩)
      · exact Or.inl (List.mem_cons.mpr (Or.inr h2))
    · simp only [mapInsert, if_neg h1] at h
      rcases List.mem_cons.mp h with h2 | h2
      · exact Or.inl (List.mem_cons.mpr (Or.inl h2))
      · rcases ih h2 with h3 | h3 | ⟨g, hg, h4⟩
        · exact Or.inl (List.mem_cons.mpr (Or.inr h3))
        · exact Or.inr (Or.inl h3)
        · exact Or.inr (Or.inr ⟨g, List.mem_cons.mpr (Or.inr hg), h4⟩)

theorem mapInsert_sets_nodup {m : VarMap} {k : VariantKey} {v : Variant}
    (h : ∀ e ∈ m, e.2.Nodup) : ∀ e ∈ mapInsert m k v, e.2.Nodup := by
  intro e he
  rcases mem_mapInsert he with h1 | h1 | ⟨f, hf, h1⟩
  · exact h e h1
  · subst h1; simp
  · subst h1; exact setInsert_nodup (h f hf)

theorem mapInsert_keys_nodup {m : VarMap} {k : VariantKey} {v : Variant}
    (h : (m.map (fun e => e.1)).Nodup) :
    ((mapInsert m k v).map (fun e => e.1)).Nodup := by
  induction m with
  | nil => simp [mapInsert]
  | cons f rest ih =>
    simp only [List.map_cons, List.nodup_cons] at h
    by_cases h1 : f.1 = k
    · subst h1
      simpa [mapInsert, List.nodup_cons] using h
    · have keyEq : ∀ e ∈ mapInsert rest k v, e.1 = k ∨ e.1 ∈ rest.map (fun g => g.1) := by
        intro e he
        rcases mem_mapInsert he with h2 | h2 | ⟨g, hg, h2⟩
        · exact Or.inr (List.mem_map.mpr ⟨e, h2, rfl⟩)
        · subst h2; exact Or.inl rfl
        · subst h2; exact Or.inr (List.mem_map.mpr ⟨g, hg, rfl⟩)
      simp only [mapInsert, if_neg h1, List.map_cons, List.nodup_cons]
      refine ⟨?_, ih h.2⟩
      intro hmem
      rcases List.mem_map.mp hmem with ⟨e, he, hfe⟩
      rcases keyEq e he with h2 | h2
      · exact h1 (hfe ▸ h2)
      · exact h.1 (hfe ▸ h2)

/-! Invariants of the diff engine output: duplicate-free variant sets and
duplicate-free keys. -/

theorem dvarLoop_inv {segs : List (Nat × Bytes)} {refName : Bytes}
    {refPath queryPath : List PathStep} :
    ∀ fuel refIx queryIx acc m,
    dvarLoop segs refName refPath queryPath fuel refIx queryIx acc = some m →
    ((∀ e ∈ acc, e.2.Nodup) → ∀ e ∈ m, e.2.Nodup) ∧
    ((acc.map (fun e => e.1)).Nodup → (m.map (fun e => e.1)).Nodup) := by
  intro fuel
  induction fuel with
  | zero =>
    intro refIx queryIx acc m h
    simp only [dvarLoop] at h
    by_cases hc : refPath.length ≤ refIx ∨ queryPath.length ≤ queryIx
    · rw [if_pos hc] at h
      cases h
      exact ⟨fun h2 => h2, fun h2 => h2⟩
    · rw [if_neg hc] at h
      exact Option.noConfusion h
  | succ fuel ih =>
    intro refIx queryIx acc m h
    simp only [dvarLoop] at h
    by_cases hc : refPath.length ≤ refIx ∨ queryPath.length ≤ queryIx
    · rw [if_pos hc] at h
      cases h
      exact ⟨fun h2 => h2, fun h2 => h2⟩
    · rw [if_neg hc] at h
      cases hstep : refPath.get? refIx with
      | none =>
        rw [hstep] at h
        simp only [Option.bind_eq_bind, Option.none_bind] at h
        exact Option.noConfusion h
      | some step =>
      rw [hstep] at h
      simp only [Option.bind_eq_bind, Option.some_bind] at h
      cases hrseq : alookup segs step.1 with
      | none =>
        rw [hrseq] at h
        simp only [Option.bind_eq_bind, Option.none_bind] at h
        exact Option.noConfusion h
      | some refSeq =>
      rw [hrseq] at h
      simp only [Option.bind_eq_bind, Option.some_bind] at h
      cases hqstep : queryPath.get? queryIx with
      | none =>
        rw [hqstep] at h
        simp only [Option.bind_eq_bind, Option.none_bind] at h
        exact Option.noConfusion h
      | some qstep =>
      rw [hqstep] at h
      simp only [Option.bind_eq_bind, Option.some_bind] at h
      cases hqseq : alookup segs qstep.1 with
      | none =>
        rw [hqseq] at h
        simp only [Option.bind_eq_bind, Option.none_bind] at h
        exact Option.noConfusion h
      | some querySeq =>
      rw [hqseq] at h
      simp only [Option.bind_eq_bind, Option.some_bind] at h
      by_cases heq : step.1 = qstep.1
      · rw [if_pos heq] at h
        exact ih _ _ _ _ h
      · rw [if_neg heq] at h
        by_cases hb : refPath.length ≤ refIx + 1 ∨ queryPath.length ≤ queryIx + 1
        · rw [if_pos hb] at h
          cases h
          exact ⟨fun h2 => h2, fun h2 => h2⟩
        · rw [if_neg hb] at h
          cases hn : refPath.get? (refIx + 1) with
          | none =>
            rw [hn] at h
            simp only [Option.bind_eq_bind, Option.none_bind] at h
            exact Option.noConfusion h
          | some nstep =>
          rw [hn] at h
          simp only [Option.bind_eq_bind, Option.some_bind] at h
          cases hnq : queryPath.get? (queryIx + 1) with
          | none =>
            rw [hnq] at h
            simp only [Option.bind_eq_bind, Option.none_bind] at h
            exact Option.noConfusion h
          | some nqstep =>
          rw [hnq] at h
          simp only [Option.bind_eq_bind, Option.some_bind] at h
          by_cases hdel : nstep.1 = qstep.1
          · rw [if_pos hdel] at h
            cases hprev : refPath.get? (if refIx = 0 then refIx else refIx - 1) with
            | none =>
              rw [hprev] at h
              simp only [Option.bind_eq_bind, Option.none_bind] at h
              exact Option.noConfusion h
            | some prev =>
            rw [hprev] at h
            simp only [Option.bind_eq_bind, Option.some_bind] at h
            cases hpseq : alookup segs prev.1 with
            | none =>
              rw [hpseq] at h
              simp only [Option.bind_eq_bind, Option.none_bind] at h
              exact Option.noConfusion h
            | some prevSeq =>
            rw [hpseq] at h
            simp only [Option.bind_eq_bind, Option.some_bind] at h
            cases hlast : prevSeq.getLast? with
            | none =>
              rw [hlast] at h
              simp only [Option.bind_eq_bind, Option.none_bind] at h
              exact Option.noConfusion h
            | some lastPrev =>
            rw [hlast] at h
            simp only [Option.bind_eq_bind, Option.some_bind] at h
            by_cases hz : step.2.1 = 0
            · rw [if_pos hz] at h
              exact Option.noConfusion h
            · rw [if_neg hz] at h
              have h2 := ih _ _ _ _ h
              exact ⟨fun h3 => h2.1 (mapInsert_sets_nodup h3),
                     fun h3 => h2.2 (mapInsert_keys_nodup h3)⟩
          · rw [if_neg hdel] at h
            by_cases hins : nqstep.1 = step.1
            · rw [if_pos hins] at h
              cases hprev : refPath.get? (if refIx = 0 then refIx else refIx - 1) with
              | none =>
                rw [hprev] at h
                simp only [Option.bind_eq_bind, Option.none_bind] at h
                exact Option.noConfusion h
              | some prev =>
              rw [hprev] at h
              simp only [Option.bind_eq_bind, Option.some_bind] at h
              cases hpseq : alookup segs prev.1 with
              | none =>
                rw [hpseq] at h
                simp only [Option.bind_eq_bind, Option.none_bind] at h
                exact Option.noConfusion h
              | some prevSeq =>
              rw [hpseq] at h
              simp only [Option.bind_eq_bind, Option.some_bind] at h
              cases hlast : prevSeq.getLast? with
              | none =>
                rw [hlast] at h
                simp only [Option.bind_eq_bind, Option.none_bind] at h
                exact Option.noConfusion h
              | some lastPrev =>
              rw [hlast] at h
              simp only [Option.bind_eq_bind, Option.some_bind] at h
              by_cases hz : step.2.1 = 0
              · rw [if_pos hz] at h
                exact Option.noConfusion h
              · rw [if_neg hz] at h
                have h2 := ih _ _ _ _ h
                exact ⟨fun h3 => h2.1 (mapInsert_sets_nodup h3),
                       fun h3 => h2.2 (mapInsert_keys_nodup h3)⟩
            · rw [if_neg hins] at h
              by_cases hne : refSeq ≠ querySeq
              · rw [if_pos hne] at h
                by_cases hl : refSeq.length = 1
                · rw [if_pos hl] at h
                  cases hql : querySeq.getLast? with
                  | none =>
                    rw [hql] at h
                    simp only [Option.map_none', Option.bind_eq_bind,
                      Option.none_bind] at h
                    exact Option.noConfusion h
                  | some b =>
                    rw [hql] at h
                    simp only [Option.map_some', Option.bind_eq_bind,
                      Option.some_bind] at h
                    have h2 := ih _ _ _ _ h
                    exact ⟨fun h3 => h2.1 (mapInsert_sets_nodup h3),
                           fun h3 => h2.2 (mapInsert_keys_nodup h3)⟩
                · rw [if_neg hl] at h
                  have h2 := ih _ _ _ _ h
                  exact ⟨fun h3 => h2.1 (mapInsert_sets_nodup h3),
                         fun h3 => h2.2 (mapInsert_keys_nodup h3)⟩
              · rw [if_neg hne] at h
                exact ih _ _ _ _ h

theorem dvar_sets_nodup {segs : List (Nat × Bytes)} {refName : Bytes}
    {refPath queryPath : List PathStep} {m : VarMap}
    (h : detect_variants_against_ref segs refName refPath queryPath = some m) :
    (∀ e ∈ m, e.2.Nodup) ∧ (m.map (fun e => e.1)).Nodup := by
  have h2 := dvarLoop_inv _ _ _ _ _ h
  exact ⟨h2.1 (by simp), h2.2 (by simp)⟩

/-- Claim C8: the diff engine is deterministic: running
detect_variants_against_ref twice on the same segment map, reference
name, reference sub-path and query sub-path yields an identical
variant map both times.  The embedded engine is a pure function of its
arguments, so the two runs are definitionally the same value. -/
theorem detect_variants_deterministic :
    ∀ (segs : List (Nat × Bytes)) (refName : Bytes)
      (refPath queryPath : List PathStep),
    detect_variants_against_ref segs refName refPath queryPath =
      detect_variants_against_ref segs refName refPath queryPath :=
  fun _ _ _ _ => rfl

/-- Counterexample to claim C2: with the reference node sequence A (one
byte) aligned against the query node sequence CT (two bytes), the code
emits a single-base substitution carrying the last query byte, not the
multi-base mismatch carrying the full query sequence that the claim
predicts for a query longer than one byte. -/
theorem mismatch_snv_counterexample :
    detect_variants_against_ref mmSegs [114] mmRef mmQuery =
      some [(⟨[114], [65], 2⟩, [Variant.snv 84])] ∧
    Variant.mnp [67, 84] ∉ [Variant.snv 84] := by
  constructor
  · rfl
  · decide

/-- Claim C2 (amended): in the aligned-mismatch case the classification
depends only on the reference sequence: when the reference node
sequence is exactly one byte the emitted variant is a substitution
whose alternate is the last byte of the query node sequence (whatever
the query length), and when the reference sequence is longer the
emitted variant is a multi-base mismatch carrying the full query node
sequence; in both cases the key is (reference name, reference offset,
reference sequence) and both cursors advance. -/
theorem mismatch_step_classification
    (segs : List (Nat × Bytes)) (refName : Bytes)
    (refPath queryPath : List PathStep) (fuel refIx queryIx : Nat)
    (acc : VarMap) (step qstep nstep nqstep : PathStep)
    (refSeq querySeq : Bytes)
    (h1 : refPath.get? refIx = some step)
    (h2 : queryPath.get? queryIx = some qstep)
    (h3 : alookup segs step.1 = some refSeq)
    (h4 : alookup segs qstep.1 = some querySeq)
    (h5 : step.1 ≠ qstep.1)
    (h6 : refIx + 1 < refPath.length)
    (h7 : queryIx + 1 < queryPath.length)
    (h8 : refPath.get? (refIx + 1) = some nstep)
    (h9 : queryPath.get? (queryIx + 1) = some nqstep)
    (h10 : nstep.1 ≠ qstep.1)
    (h11 : nqstep.1 ≠ step.1)
    (h12 : refSeq ≠ querySeq)
    (h13 : querySeq ≠ []) :
    dvarLoop segs refName refPath queryPath (fuel + 1) refIx queryIx acc =
      dvarLoop segs refName refPath queryPath fuel (refIx + 1) (queryIx + 1)
        (mapInsert acc ⟨refName, refSeq, step.2.1⟩
          (if refSeq.length = 1 then Variant.snv (querySeq.getLast h13)
           else Variant.mnp querySeq)) := by
  have hr : ¬ (refPath.length ≤ refIx ∨ queryPath.length ≤ queryIx) := by omega
  have hb : ¬ (refPath.length ≤ refIx + 1 ∨ queryPath.length ≤ queryIx + 1) := by
    omega
  simp only [dvarLoop, if_neg hr, h1, Option.bind_eq_bind, Option.some_bind,
    h3, h2, h4, if_neg h5, if_neg hb, h8, h9, if_neg h10, if_neg h11,
    if_pos h12]
  by_cases hl : refSeq.length = 1
  · simp [hl, List.getLast?_eq_getLast querySeq h13]
  · simp [hl]

/-- Witness for the amended claim C2, at the concrete mismatch inputs:
the one-step unfolding produced by the theorem at the counterexample
graph. -/
theorem mismatch_step_classification_witness :
    dvarLoop mmSegs [114] mmRef mmQuery 5 1 1 [] =
      dvarLoop mmSegs [114] mmRef mmQuery 4 2 2
        (mapInsert [] ⟨[114], [65], 2⟩
          (if ([65] : Bytes).length = 1
           then Variant.snv (([67, 84] : Bytes).getLast (by decide))
           else Variant.mnp [67, 84])) :=
  mismatch_step_classification mmSegs [114] mmRef mmQuery 4 1 1 []
    (2, 2, .fwd) (3, 2, .fwd) (4, 3, .fwd) (4, 4, .fwd) [65] [67, 84]
    (by decide) (by decide) (by decide) (by decide) (by decide)
    (by decide) (by decide) (by decide) (by decide) (by decide)
    (by decide) (by decide) (by decide)

/-- Claim C7: a line of the ultrabubble file with fewer than two
tab-separated fields makes the whole load fail with an error; no
partial list is returned. -/
theorem load_ultrabubbles_short_line_fails :
    ∀ lines : List Bytes,
    (∃ line ∈ lines, (splitTab line).length < 2) →
    ∃ e, load_ultrabubbles lines = .error e := by
  intro lines
  induction lines with
  | nil =>
    rintro ⟨l, hl, _⟩
    cases hl
  | cons line rest ih =>
    rintro ⟨l, hl, hshort⟩
    rcases List.mem_cons.mp hl with rfl | hmem
    · simp only [load_ultrabubbles]
      cases h0 : (splitTab l)[0]? with
      | none => exact ⟨.missingField, by simp [h0]⟩
      | some f =>
        cases hp : parseU64 f with
        | none => exact ⟨.badNumber, by simp [h0, hp]⟩
        | some v =>
          have h1 : (splitTab l)[1]? = none := List.getElem?_eq_none (by omega)
          exact ⟨.missingField, by simp [h0, hp, h1]⟩
    · simp only [load_ultrabubbles]
      cases h0 : (splitTab line)[0]? with
      | none => exact ⟨.missingField, by simp [h0]⟩
      | some f =>
        cases hp : parseU64 f with
        | none => exact ⟨.badNumber, by simp [h0, hp]⟩
        | some v =>
          cases h1 : (splitTab line)[1]? with
          | none => exact ⟨.missingField, by simp [h0, hp, h1]⟩
          | some g =>
            cases hq : parseU64 g with
            | none => exact ⟨.badNumber, by simp [h0, hp, h1, hq]⟩
            | some w =>
              rcases ih ⟨l, hmem, hshort⟩ with ⟨e, he⟩
              exact ⟨e, by simp [h0, hp, h1, hq, he]⟩

/-- Witness for claim C7: loading a file whose second line is the single
field 3 fails. -/
theorem load_ultrabubbles_short_line_fails_witness :
    (∃ line ∈ [[49, 9, 50], [51]], (splitTab line).length < 2) ∧
    ∃ e, load_ultrabubbles [[49, 9, 50], [51]] = .error e :=
  ⟨by decide,
   load_ultrabubbles_short_line_fails [[49, 9, 50], [51]] (by decide)⟩

/-- Counterexample to claim C1: in the example bubble the query paths a
and b both call a substitution at the same key against reference r
(alternates T and C respectively), yet the per-reference map returned
by the orchestrator holds only the set of the later query: the
HashMap extend of the query loop replaces the whole set stored at an
existing key instead of merging, so the variant of query a is lost. -/
theorem extend_overwrite_counterexample :
    detect_variants_against_ref exSegs [114] exP0 exP1 =
      some [(exKey, [Variant.snv 84])] ∧
    detect_variants_against_ref exSegs [114] exP0 exP2 =
      some [(exKey, [Variant.snv 67])] ∧
    ((detect_variants_in_sub_paths exConfig exPathData none exIdx 1 3).bind
      fun outer => (alookup outer [114]).bind fun m => alookup m exKey) =
      some [Variant.snv 67] ∧
    Variant.snv 84 ∉ [Variant.snv 67] := by
  refine ⟨rfl, rfl, rfl, by decide⟩

/-- Claim C1 (amended): in the per-reference variant map built by the
orchestrator's query loop, each key holds exactly the variant set
produced by the last eligible query (in the canonical sorted,
deduplicated query order) whose diff run emits that key — the map
extend overwrites the set stored by earlier queries — and every stored
set is duplicate-free, since identical Variant values are deduplicated
within the single query comparison that produced the set. -/
theorem processRef_last_writer
    (config : VariantConfig) (segs : List (Nat × Bytes)) (names : List Bytes)
    (refName : Bytes) (refPath : List PathStep)
    (refOrient : Orient × Orient) :
    ∀ (queries : List (Nat × List PathStep)) (macc m : VarMap),
    processRef config segs names refName refPath refOrient queries macc = some m →
    (∀ e ∈ macc, e.2.Nodup) →
    (∀ k, alookup m k =
       (queries.reverse.findSome?
         (queryContrib config segs names refName refPath refOrient k)).or
       (alookup macc k)) ∧
    ∀ e ∈ m, e.2.Nodup := by
  intro queries
  induction queries with
  | nil =>
    intro macc m h hacc
    simp only [processRef] at h
    cases h
    refine ⟨fun k => ?_, hacc⟩
    simp [List.findSome?_nil, Option.or]
  | cons q rest ih =>
    intro macc m h hacc
    simp only [processRef] at h
    cases hq : names.get? q.1 with
    | none =>
      rw [hq] at h
      simp only [Option.bind_eq_bind, Option.none_bind] at h
      exact Option.noConfusion h
    | some qn =>
    rw [hq] at h
    simp only [Option.bind_eq_bind, Option.some_bind] at h
    cases hqo : sub_path_edge_orient q.2 with
    | none =>
      rw [hqo] at h
      simp only [Option.bind_eq_bind, Option.none_bind] at h
      exact Option.noConfusion h
    | some qo =>
    rw [hqo] at h
    simp only [Option.bind_eq_bind, Option.some_bind] at h
    by_cases hcond : qn ≠ refName ∧ ¬ (config.ignore_path refOrient qo = true)
    · rw [if_pos hcond] at h
      cases hd : detect_variants_against_ref segs refName refPath q.2 with
      | none =>
        rw [hd] at h
        simp only [Option.map_none', Option.bind_eq_bind, Option.none_bind] at h
        exact Option.noConfusion h
      | some vars =>
      rw [hd] at h
      simp only [Option.map_some', Option.bind_eq_bind, Option.some_bind] at h
      have hvars := dvar_sets_nodup hd
      have hacc' : ∀ e ∈ mapExtend macc vars, e.2.Nodup := by
        intro e he
        rcases mem_mapExtend he with h2 | h2
        · exact hacc e h2
        · exact hvars.1 e h2
      have hIH := ih (mapExtend macc vars) m h hacc'
      refine ⟨fun k => ?_, hIH.2⟩
      have hcq : queryContrib config segs names refName refPath refOrient k q =
          alookup vars k := by
        simp only [queryContrib, hq, hqo]
        rw [if_pos hcond, hd, Option.some_bind]
      rw [List.reverse_cons, List.findSome?_append]
      have hone : List.findSome?
          (queryContrib config segs names refName refPath refOrient k) [q] =
          alookup vars k := by
        rw [List.findSome?_cons, hcq]
        cases alookup vars k <;> simp [List.findSome?_nil]
      rw [hone, Option.or_assoc]
      rw [hIH.1 k, keysNodup_alookup_or k hvars.2]
    · rw [if_neg hcond] at h
      have hIH := ih macc m h hacc
      refine ⟨fun k => ?_, hIH.2⟩
      have hcq : queryContrib config segs names refName refPath refOrient k q =
          none := by
        simp only [queryContrib, hq, hqo]
        rw [if_neg hcond]
      rw [List.reverse_cons, List.findSome?_append]
      have hone : List.findSome?
          (queryContrib config segs names refName refPath refOrient k) [q] =
          none := by
        rw [List.findSome?_cons, hcq, List.findSome?_nil]
      rw [hone, Option.or_none]
      exact hIH.1 k

/-- Witness for the amended claim C1, at the example bubble: the
per-reference map of reference r holds, at the shared key, exactly the
set of the last eligible query (query b, alternate C). -/
theorem processRef_last_writer_witness :
    processRef exConfig exSegs exNames [114] exP0 (.fwd, .fwd) exQueries [] =
      some [(exKey, [Variant.snv 67])] ∧
    alookup [(exKey, [Variant.snv 67])] exKey =
      (exQueries.reverse.findSome?
        (queryContrib exConfig exSegs exNames [114] exP0 (.fwd, .fwd) exKey)).or
      (alookup ([] : VarMap) exKey) :=
  ⟨by rfl,
   (processRef_last_writer exConfig exSegs exNames [114] exP0 (.fwd, .fwd)
     exQueries [] [(exKey, [Variant.snv 67])] (by rfl) (by simp)).1 exKey⟩

/-- Claim C6: when the skip-inverted-paths flag is set and a query
sub-path's edge-orientation pair differs from the reference's, that
(reference, query) pair is skipped entirely: removing the query from
the loop of the orchestrator leaves the per-reference variant map
unchanged, whatever the sub-path contents. -/
theorem inverted_query_contributes_nothing
    (config : VariantConfig) (segs : List (Nat × Bytes)) (names : List Bytes)
    (refName : Bytes) (refPath : List PathStep) (refOrient : Orient × Orient)
    (qix : Nat) (qpath : List PathStep) (qn : Bytes) (qo : Orient × Orient)
    (l₁ l₂ : List (Nat × List PathStep)) (macc : VarMap)
    (hflag : config.ignore_inverted_paths = true)
    (hname : names.get? qix = some qn)
    (horient : sub_path_edge_orient qpath = some qo)
    (hdiff : qo ≠ refOrient) :
    processRef config segs names refName refPath refOrient
      (l₁ ++ (qix, qpath) :: l₂) macc =
    processRef config segs names refName refPath refOrient (l₁ ++ l₂) macc := by
  have hig : config.ignore_path refOrient qo = true := by
    have hro : refOrient ≠ qo := fun hh => hdiff hh.symm
    simp [VariantConfig.ignore_path, hflag, hro]
  induction l₁ generalizing macc with
  | nil =>
    simp only [List.nil_append, processRef, hname, horient,
      Option.bind_eq_bind, Option.some_bind]
    have hcondF : ¬ (qn ≠ refName ∧ ¬ (config.ignore_path refOrient qo = true)) :=
      fun hc => hc.2 hig
    rw [if_neg hcondF]
  | cons p rest ih =>
    simp only [List.cons_append, processRef]
    cases hp : names.get? p.1 with
    | none => simp only [Option.bind_eq_bind, Option.none_bind]
    | some pn =>
    simp only [Option.bind_eq_bind, Option.some_bind]
    cases ho : sub_path_edge_orient p.2 with
    | none => simp only [Option.bind_eq_bind, Option.none_bind]
    | some po =>
    simp only [Option.bind_eq_bind, Option.some_bind]
    by_cases hc : pn ≠ refName ∧ ¬ (config.ignore_path refOrient po = true)
    · rw [if_pos hc, if_pos hc]
      cases hd : detect_variants_against_ref segs refName refPath p.2 with
      | none => simp only [Option.map_none', Option.bind_eq_bind, Option.none_bind]
      | some vars =>
        simp only [Option.map_some', Option.bind_eq_bind, Option.some_bind]
        exact ih (mapExtend macc vars)
    · rw [if_neg hc, if_neg hc]
      exact ih macc

theorem dvarWithLoop_eq_dvarLoop (segs : List (Nat × Bytes)) (refName : Bytes)
    (refPath queryPath : List PathStep) :
    ∀ fuel refIx queryIx acc,
    dvarWithLoop segs refPath queryPath
      (vcfHandler segs refName refPath queryPath) fuel refIx queryIx acc =
    dvarLoop segs refName refPath queryPath fuel refIx queryIx acc := by
  intro fuel
  induction fuel with
  | zero => intro refIx queryIx acc; rfl
  | succ fuel ih =>
    intro refIx queryIx acc
    simp only [dvarLoop, dvarWithLoop]
    by_cases hc : refPath.length ≤ refIx ∨ queryPath.length ≤ queryIx
    · rw [if_pos hc, if_pos hc]
    · rw [if_neg hc, if_neg hc]
      cases hstep : refPath.get? refIx with
      | none => simp only [Option.bind_eq_bind, Option.none_bind]
      | some step =>
      simp only [Option.bind_eq_bind, Option.some_bind]
      cases hrseq : alookup segs step.1 with
      | none => simp only [Option.bind_eq_bind, Option.none_bind]
      | some refSeq =>
      simp only [Option.bind_eq_bind, Option.some_bind]
      cases hqstep : queryPath.get? queryIx with
      | none => simp only [Option.bind_eq_bind, Option.none_bind]
      | some qstep =>
      simp only [Option.bind_eq_bind, Option.some_bind]
      cases hqseq : alookup segs qstep.1 with
      | none => simp only [Option.bind_eq_bind, Option.none_bind]
      | some querySeq =>
      simp only [Option.bind_eq_bind, Option.some_bind]
      by_cases heq : step.1 = qstep.1
      · rw [if_pos heq, if_pos heq]
        exact ih (refIx + 1) (queryIx + 1) acc
      · rw [if_neg heq, if_neg heq]
        by_cases hb : refPath.length ≤ refIx + 1 ∨ queryPath.length ≤ queryIx + 1
        · rw [if_pos hb, if_pos hb]
        · rw [if_neg hb, if_neg hb]
          cases hn : refPath.get? (refIx + 1) with
          | none => simp only [Option.bind_eq_bind, Option.none_bind]
          | some nstep =>
          simp only [Option.bind_eq_bind, Option.some_bind]
          cases hnq : queryPath.get? (queryIx + 1) with
          | none => simp only [Option.bind_eq_bind, Option.none_bind]
          | some nqstep =>
          simp only [Option.bind_eq_bind, Option.some_bind]
          by_cases hdel : nstep.1 = qstep.1
          · rw [if_pos hdel, if_pos hdel]
            simp only [vcfHandler, vcfDeletion, hstep, hrseq,
              Option.bind_eq_bind, Option.some_bind]
            cases hprev : refPath.get? (if refIx = 0 then refIx else refIx - 1) with
            | none => simp only [Option.bind_eq_bind, Option.none_bind]
            | some prev =>
            simp only [Option.bind_eq_bind, Option.some_bind]
            cases hpseq : alookup segs prev.1 with
            | none => simp only [Option.bind_eq_bind, Option.none_bind]
            | some prevSeq =>
            simp only [Option.bind_eq_bind, Option.some_bind]
            cases hlast : prevSeq.getLast? with
            | none => simp only [Option.bind_eq_bind, Option.none_bind]
            | some lastPrev =>
            simp only [Option.bind_eq_bind, Option.some_bind]
            by_cases hz : step.2.1 = 0
            · rw [if_pos hz, if_pos hz]
              simp only [Option.bind_eq_bind, Option.none_bind]
            · rw [if_neg hz, if_neg hz]
              simp only [Option.bind_eq_bind, Option.some_bind]
              exact ih (refIx + 1) queryIx _
          · rw [if_neg hdel, if_neg hdel]
            by_cases hins : nqstep.1 = step.1
            · rw [if_pos hins, if_pos hins]
              simp only [vcfHandler, vcfInsertion, hqstep, hqseq,
                Option.bind_eq_bind, Option.some_bind]
              cases hprev : refPath.get? (if refIx = 0 then refIx else refIx - 1) with
              | none => simp only [Option.bind_eq_bind, Option.none_bind]
              | some prev =>
              simp only [Option.bind_eq_bind, Option.some_bind]
              cases hpseq : alookup segs prev.1 with
              | none => simp only [Option.bind_eq_bind, Option.none_bind]
              | some prevSeq =>
              simp only [Option.bind_eq_bind, Option.some_bind]
              cases hlast : prevSeq.getLast? with
              | none => simp only [Option.bind_eq_bind, Option.none_bind]
              | some lastPrev =>
              simp only [Option.bind_eq_bind, Option.some_bind]
              by_cases hz : step.2.1 = 0
              · rw [if_pos hz, if_pos hz]
                simp only [Option.bind_eq_bind, Option.none_bind]
              · rw [if_neg hz, if_neg hz]
                simp only [Option.bind_eq_bind, Option.some_bind]
                exact ih refIx (queryIx + 1) _
            · rw [if_neg hins, if_neg hins]
              by_cases hne : refSeq ≠ querySeq
              · rw [if_pos hne, if_pos hne]
                simp only [vcfHandler, vcfMismatch, hstep, hrseq, hqstep, hqseq,
                  Option.bind_eq_bind, Option.some_bind]
                by_cases hl : refSeq.length = 1
                · rw [if_pos hl, if_pos hl]
                  cases hql : querySeq.getLast? with
                  | none =>
                    simp only [Option.map_none', Option.bind_eq_bind,
                      Option.none_bind]
                  | some b =>
                    simp only [Option.map_some', Option.bind_eq_bind,
                      Option.some_bind]
                    exact ih (refIx + 1) (queryIx + 1) _
                · rw [if_neg hl, if_neg hl]
                  simp only [Option.bind_eq_bind, Option.some_bind]
                  exact ih (refIx + 1) (queryIx + 1) _
              · rw [if_neg hne, if_neg hne]
                simp only [vcfHandler, Option.bind_eq_bind, Option.some_bind]
                exact ih (refIx + 1) (queryIx + 1) acc

/-- Claim C9: the handler-driven implementation
detect_variants_against_ref_ (the generic walker driven by the
VCFVariantHandler) returns exactly the same variant map as the original
monolithic detect_variants_against_ref, for all segment maps, names and
sub-paths. -/
theorem handler_engine_equals_monolithic :
    ∀ (segs : List (Nat × Bytes)) (refName : Bytes)
      (refPath queryPath : List PathStep),
    detect_variants_against_ref_ segs refName refPath queryPath =
    detect_variants_against_ref segs refName refPath queryPath := by
  intro segs refName refPath queryPath
  exact dvarWithLoop_eq_dvarLoop segs refName refPath queryPath _ 0 0 []

/-- Witness for claim C6: at the example bubble, a reversed query
sub-path is skipped; processing it alone equals processing no queries
at all. -/
theorem inverted_query_contributes_nothing_witness :
    exConfig.ignore_inverted_paths = true ∧
    sub_path_edge_orient exPInv = some (.fwd, .rev) ∧
    processRef exConfig exSegs exNames [114] exP0 (.fwd, .fwd)
      ([] ++ (1, exPInv) :: []) [] =
    processRef exConfig exSegs exNames [114] exP0 (.fwd, .fwd) ([] ++ []) [] :=
  ⟨rfl, rfl,
   inverted_query_contributes_nothing exConfig exSegs exNames [114] exP0
     (.fwd, .fwd) 1 exPInv [97] (.fwd, .rev) [] [] []
     rfl (by rfl) (by rfl) (by decide)⟩

theorem segOk_elim {segs : List (Nat × Bytes)} {s : PathStep}
    (h : segOkB segs s = true) :
    ∃ q, alookup segs s.1 = some q ∧ q ≠ [] := by
  unfold segOkB at h
  cases h2 : alookup segs s.1 with
  | none => rw [h2] at h; exact Bool.noConfusion h
  | some q =>
    rw [h2] at h
    simp only [decide_eq_true_eq] at h
    exact ⟨q, rfl, h⟩

theorem dvarLoop_total (segs : List (Nat × Bytes)) (refName : Bytes)
    (refPath queryPath : List PathStep)
    (hseg : ∀ s ∈ refPath ++ queryPath, segOkB segs s = true)
    (hoff : ∀ s ∈ refPath, 1 ≤ s.2.1) :
    ∀ fuel refIx queryIx acc,
    refPath.length + queryPath.length ≤ refIx + queryIx + fuel →
    (dvarLoop segs refName refPath queryPath fuel refIx queryIx acc).isSome = true := by
  intro fuel
  induction fuel with
  | zero =>
    intro refIx queryIx acc hfuel
    simp only [dvarLoop]
    by_cases hc : refPath.length ≤ refIx ∨ queryPath.length ≤ queryIx
    · rw [if_pos hc]; rfl
    · exfalso; push_neg at hc; omega
  | succ fuel ih =>
    intro refIx queryIx acc hfuel
    simp only [dvarLoop]
    by_cases hc : refPath.length ≤ refIx ∨ queryPath.length ≤ queryIx
    · rw [if_pos hc]; rfl
    · rw [if_neg hc]
      push_neg at hc
      obtain ⟨step, hstep⟩ : ∃ x, refPath.get? refIx = some x :=
        ⟨_, List.get?_eq_get hc.1⟩
      rw [hstep]
      have hsmem : step ∈ refPath := List.get?_mem hstep
      obtain ⟨refSeq, hrseq, hrne⟩ :=
        segOk_elim (hseg step (List.mem_append_left _ hsmem))
      simp only [Option.bind_eq_bind, Option.some_bind]
      rw [hrseq]
      obtain ⟨qstep, hqstep⟩ : ∃ x, queryPath.get? queryIx = some x :=
        ⟨_, List.get?_eq_get hc.2⟩
      simp only [Option.bind_eq_bind, Option.some_bind]
      rw [hqstep]
      have hqmem : qstep ∈ queryPath := List.get?_mem hqstep
      obtain ⟨querySeq, hqseq, hqne⟩ :=
        segOk_elim (hseg qstep (List.mem_append_right _ hqmem))
      simp only [Option.bind_eq_bind, Option.some_bind]
      rw [hqseq]
      simp only [Option.bind_eq_bind, Option.some_bind]
      by_cases heq : step.1 = qstep.1
      · rw [if_pos heq]
        exact ih (refIx + 1) (queryIx + 1) acc (by omega)
      · rw [if_neg heq]
        by_cases hb : refPath.length ≤ refIx + 1 ∨ queryPath.length ≤ queryIx + 1
        · rw [if_pos hb]; rfl
        · rw [if_neg hb]
          push_neg at hb
          obtain ⟨nstep, hn⟩ : ∃ x, refPath.get? (refIx + 1) = some x :=
            ⟨_, List.get?_eq_get hb.1⟩
          rw [hn]
          obtain ⟨nqstep, hnq⟩ : ∃ x, queryPath.get? (queryIx + 1) = some x :=
            ⟨_, List.get?_eq_get hb.2⟩
          simp only [Option.bind_eq_bind, Option.some_bind]
          rw [hnq]
          simp only [Option.bind_eq_bind, Option.some_bind]
          have hz : ¬ (step.2.1 = 0) := by
            have := hoff step hsmem; omega
          have hpi : (if refIx = 0 then refIx else refIx - 1) < refPath.length := by
            split <;> omega
          obtain ⟨prev, hprev⟩ :
              ∃ x, refPath.get? (if refIx = 0 then refIx else refIx - 1) = some x :=
            ⟨_, List.get?_eq_get hpi⟩
          have hpmem : prev ∈ refPath := List.get?_mem hprev
          obtain ⟨prevSeq, hpseq, hpne⟩ :=
            segOk_elim (hseg prev (List.mem_append_left _ hpmem))
          obtain ⟨lastPrev, hlast⟩ : ∃ x, prevSeq.getLast? = some x := by
            cases hl2 : prevSeq.getLast? with
            | none =>
              exfalso
              have := List.getLast?_isSome.mpr hpne
              rw [hl2] at this
              exact Bool.noConfusion this
            | some x => exact ⟨x, rfl⟩
          by_cases hdel : nstep.1 = qstep.1
          · rw [if_pos hdel, hprev]
            simp only [Option.bind_eq_bind, Option.some_bind]
            rw [hpseq]
            simp only [Option.bind_eq_bind, Option.some_bind]
            rw [hlast]
            simp only [Option.bind_eq_bind, Option.some_bind]
            rw [if_neg hz]
            exact ih (refIx + 1) queryIx _ (by omega)
          · rw [if_neg hdel]
            by_cases hins : nqstep.1 = step.1
            · rw [if_pos hins, hprev]
              simp only [Option.bind_eq_bind, Option.some_bind]
              rw [hpseq]
              simp only [Option.bind_eq_bind, Option.some_bind]
              rw [hlast]
              simp only [Option.bind_eq_bind, Option.some_bind]
              rw [if_neg hz]
              exact ih refIx (queryIx + 1) _ (by omega)
            · rw [if_neg hins]
              by_cases hne : refSeq ≠ querySeq
              · rw [if_pos hne]
                obtain ⟨lastQ, hlq⟩ : ∃ x, querySeq.getLast? = some x := by
                  cases hl2 : querySeq.getLast? with
                  | none =>
                    exfalso
                    have := List.getLast?_isSome.mpr hqne
                    rw [hl2] at this
                    exact Bool.noConfusion this
                  | some x => exact ⟨x, rfl⟩
                by_cases hl : refSeq.length = 1
                · rw [if_pos hl, hlq]
                  simp only [Option.map_some', Option.bind_eq_bind,
                    Option.some_bind]
                  exact ih (refIx + 1) (queryIx + 1) _ (by omega)
                · rw [if_neg hl]
                  exact ih (refIx + 1) (queryIx + 1) _ (by omega)
              · rw [if_neg hne]
                exact ih (refIx + 1) (queryIx + 1) acc (by omega)

/-- Claim C10: under the preconditions established by the path
materializer — every node of either sub-path maps to a non-empty
sequence and every step offset is at least one (offsets produced by the
materializer start at one) — detect_variants_against_ref hits no error
branch: no failing segment lookup, no failing last-byte read, and no
underflow in the position subtraction; the run returns a variant map. -/
theorem engine_total_on_materialized_paths :
    (∀ (segMap : List (Nat × Bytes)) (stepsIn : List (Nat × Orient))
       (offV : Nat) (l : List PathStep),
       1 ≤ offV → materializeSteps segMap stepsIn offV = some l →
       ∀ s ∈ l, 1 ≤ s.2.1) ∧
    (∀ (segs : List (Nat × Bytes)) (refName : Bytes)
       (refPath queryPath : List PathStep),
       (∀ s ∈ refPath ++ queryPath, segOkB segs s = true) →
       (∀ s ∈ refPath ++ queryPath, 1 ≤ s.2.1) →
       (detect_variants_against_ref segs refName refPath queryPath).isSome = true) := by
  constructor
  · intro segMap stepsIn
    induction stepsIn with
    | nil =>
      intro offV l h1 h2
      simp only [materializeSteps] at h2
      cases h2
      intro s hs
      cases hs
    | cons head rest ih =>
      obtain ⟨node, o⟩ := head
      intro offV l h1 h2
      simp only [materializeSteps] at h2
      cases hsq : alookup segMap node with
      | none =>
        rw [hsq] at h2
        simp only [Option.bind_eq_bind, Option.none_bind] at h2
        exact Option.noConfusion h2
      | some seq =>
      rw [hsq] at h2
      simp only [Option.bind_eq_bind, Option.some_bind] at h2
      cases htail : materializeSteps segMap rest (offV + seq.length) with
      | none =>
        rw [htail] at h2
        simp only [Option.bind_eq_bind, Option.none_bind] at h2
        exact Option.noConfusion h2
      | some tail =>
      rw [htail] at h2
      simp only [Option.bind_eq_bind, Option.some_bind] at h2
      cases h2
      intro s hs
      rcases List.mem_cons.mp hs with rfl | hs2
      · exact h1
      · exact ih (offV + seq.length) tail (by omega) htail s hs2
  · intro segs refName refPath queryPath hseg hoff
    exact dvarLoop_total segs refName refPath queryPath hseg
      (fun s hs => hoff s (List.mem_append_left _ hs)) _ 0 0 [] (by omega)

/-- Witness for claim C10: the deletion scenario graph satisfies both
preconditions and the engine returns a map. -/
theorem engine_total_on_materialized_paths_witness :
    (∀ s ∈ wRef ++ wQuery, segOkB wSegs s = true) ∧
    (∀ s ∈ wRef ++ wQuery, 1 ≤ s.2.1) ∧
    (detect_variants_against_ref wSegs [114] wRef wQuery).isSome = true :=
  ⟨by decide, by decide,
   engine_total_on_materialized_paths.2 wSegs [114] wRef wQuery
     (by decide) (by decide)⟩

/-! Sorting and adjacent deduplication, for the record assembly. -/

theorem mem_insCmp {α : Type} (cmp : α → α → Ordering) (x a : α) :
    ∀ l, a ∈ insCmp cmp x l ↔ a = x ∨ a ∈ l := by
  intro l
  induction l with
  | nil => simp [insCmp]
  | cons y ys ih =>
    cases h : cmp x y with
    | gt =>
      simp only [insCmp, h, List.mem_cons, ih]
      tauto
    | lt => simp only [insCmp, h, List.mem_cons]
    | eq => simp only [insCmp, h, List.mem_cons]

theorem pairwise_insCmp {α : Type} (cmp : α → α → Ordering)
    (htot : ∀ a b, cmp a b = .gt → cmp b a ≠ .gt)
    (htr : ∀ a b c, cmp a b ≠ .gt → cmp b c ≠ .gt → cmp a c ≠ .gt)
    (x : α) :
    ∀ l, l.Pairwise (fun a b => cmp a b ≠ .gt) →
      (insCmp cmp x l).Pairwise (fun a b => cmp a b ≠ .gt) := by
  intro l
  induction l with
  | nil =>
    intro _
    simp [insCmp]
  | cons y ys ih =>
    intro h
    rcases List.pairwise_cons.mp h with ⟨hy, hys⟩
    cases hcxy : cmp x y with
    | gt =>
      simp only [insCmp, hcxy]
      refine List.pairwise_cons.mpr ⟨?_, ih hys⟩
      intro a ha
      rcases (mem_insCmp cmp x a ys).mp ha with h3 | ha2
      · rw [h3]; exact htot x y hcxy
      · exact hy a ha2
    | lt =>
      simp only [insCmp, hcxy]
      refine List.pairwise_cons.mpr ⟨?_, h⟩
      intro a ha
      rcases List.mem_cons.mp ha with rfl | ha2
      · rw [hcxy]
        exact fun hh => Ordering.noConfusion hh
      · exact htr x y a (by rw [hcxy]; exact fun hh => Ordering.noConfusion hh)
          (hy a ha2)
    | eq =>
      simp only [insCmp, hcxy]
      refine List.pairwise_cons.mpr ⟨?_, h⟩
      intro a ha
      rcases List.mem_cons.mp ha with rfl | ha2
      · rw [hcxy]
        exact fun hh => Ordering.noConfusion hh
      · exact htr x y a (by rw [hcxy]; exact fun hh => Ordering.noConfusion hh)
          (hy a ha2)

theorem pairwise_sortC {α : Type} (cmp : α → α → Ordering)
    (htot : ∀ a b, cmp a b = .gt → cmp b a ≠ .gt)
    (htr : ∀ a b c, cmp a b ≠ .gt → cmp b c ≠ .gt → cmp a c ≠ .gt) :
    ∀ l : List α, (sortC cmp l).Pairwise (fun a b => cmp a b ≠ .gt) := by
  intro l
  induction l with
  | nil => simp [sortC]
  | cons x xs ih => exact pairwise_insCmp cmp htot htr x (sortC cmp xs) ih

theorem dedupRest_sublist {α : Type} (eqv : α → α → Bool) :
    ∀ (l : List α) (prev : α), (dedupRest eqv prev l).Sublist l := by
  intro l
  induction l with
  | nil => intro prev; simp [dedupRest]
  | cons y ys ih =>
    intro prev
    simp only [dedupRest]
    by_cases hb : eqv prev y = true
    · rw [if_pos hb]
      exact (ih prev).cons y
    · rw [if_neg hb]
      exact (ih y).cons₂ y

theorem dedupAdjBy_sublist {α : Type} (eqv : α → α → Bool) (l : List α) :
    (dedupAdjBy eqv l).Sublist l := by
  cases l with
  | nil => simp [dedupAdjBy]
  | cons x xs =>
    simp only [dedupAdjBy]
    exact (dedupRest_sublist eqv xs x).cons₂ x

theorem chain_ne_dedupRest {α : Type} (eqv : α → α → Bool)
    (heqv : ∀ a b, eqv a b = true ↔ a = b) :
    ∀ (l : List α) (prev : α),
    List.Chain' (fun a b => ¬ (a = b)) (prev :: dedupRest eqv prev l) := by
  intro l
  induction l with
  | nil => intro prev; simp [dedupRest]
  | cons y ys ih =>
    intro prev
    simp only [dedupRest]
    by_cases hb : eqv prev y = true
    · rw [if_pos hb]
      exact ih prev
    · rw [if_neg hb]
      rw [List.chain'_cons]
      exact ⟨fun hh => hb ((heqv prev y).mpr hh), ih y⟩

theorem chain_ne_dedupAdjBy {α : Type} (eqv : α → α → Bool)
    (heqv : ∀ a b, eqv a b = true ↔ a = b) (l : List α) :
    List.Chain' (fun a b => ¬ (a = b)) (dedupAdjBy eqv l) := by
  cases l with
  | nil => simp [dedupAdjBy]
  | cons x xs => exact chain_ne_dedupRest eqv heqv xs x

/-! Comparator facts for the record ordering. -/

theorem natCmp_lt_iff {a b : Nat} : natCmp a b = .lt ↔ a < b := by
  unfold natCmp
  split_ifs with h1 h2 <;> simp_all <;> omega

theorem natCmp_eq_iff {a b : Nat} : natCmp a b = .eq ↔ a = b := by
  unfold natCmp
  split_ifs with h1 h2 <;> simp_all <;> omega

theorem natCmp_gt_iff {a b : Nat} : natCmp a b = .gt ↔ b < a := by
  unfold natCmp
  split_ifs with h1 h2 <;> simp_all <;> omega

theorem intCmp_lt_iff {a b : Int} : intCmp a b = .lt ↔ a < b := by
  unfold intCmp
  split_ifs with h1 h2 <;> simp_all <;> omega

theorem intCmp_eq_iff {a b : Int} : intCmp a b = .eq ↔ a = b := by
  unfold intCmp
  split_ifs with h1 h2 <;> simp_all <;> omega

theorem intCmp_gt_iff {a b : Int} : intCmp a b = .gt ↔ b < a := by
  unfold intCmp
  split_ifs with h1 h2 <;> simp_all <;> omega

theorem bytesCmp_eq_iff : ∀ a b : Bytes, bytesCmp a b = .eq ↔ a = b := by
  intro a
  induction a with
  | nil =>
    intro b
    cases b <;> simp [bytesCmp]
  | cons x xs ih =>
    intro b
    cases b with
    | nil => simp [bytesCmp]
    | cons y ys =>
      simp only [bytesCmp]
      cases hxy : natCmp x y with
      | lt =>
        have hne : x ≠ y := by
          have := natCmp_lt_iff.mp hxy
          omega
        simp [hne]
      | gt =>
        have hne : x ≠ y := by
          have := natCmp_gt_iff.mp hxy
          omega
        simp [hne]
      | eq =>
        have hxyeq : x = y := natCmp_eq_iff.mp hxy
        simp [hxyeq, ih ys]

theorem bytesCmp_gt_iff_lt : ∀ a b : Bytes, bytesCmp a b = .gt ↔ bytesCmp b a = .lt := by
  intro a
  induction a with
  | nil =>
    intro b
    cases b <;> simp [bytesCmp]
  | cons x xs ih =>
    intro b
    cases b with
    | nil => simp [bytesCmp]
    | cons y ys =>
      simp only [bytesCmp]
      cases hxy : natCmp x y with
      | lt =>
        have hyx : natCmp y x = .gt := natCmp_gt_iff.mpr (natCmp_lt_iff.mp hxy)
        simp [hyx]
      | gt =>
        have hyx : natCmp y x = .lt := natCmp_lt_iff.mpr (natCmp_gt_iff.mp hxy)
        simp [hyx]
      | eq =>
        have hxyeq : x = y := natCmp_eq_iff.mp hxy
        have hyx : natCmp y x = .eq := natCmp_eq_iff.mpr hxyeq.symm
        simp [hyx, ih ys]

theorem bytesCmp_lt_trans :
    ∀ a b c : Bytes, bytesCmp a b = .lt → bytesCmp b c = .lt → bytesCmp a c = .lt := by
  intro a
  induction a with
  | nil =>
    intro b c h1 h2
    cases b with
    | nil => simp [bytesCmp] at h1
    | cons y ys =>
      cases c with
      | nil => simp [bytesCmp] at h2
      | cons z zs => simp [bytesCmp]
  | cons x xs ih =>
    intro b c h1 h2
    cases b with
    | nil => simp [bytesCmp] at h1
    | cons y ys =>
      cases c with
      | nil => simp [bytesCmp] at h2
      | cons z zs =>
        simp only [bytesCmp] at h1 h2 ⊢
        cases hxy : natCmp x y with
        | gt => rw [hxy] at h1; exact Ordering.noConfusion h1
        | lt =>
          have hxylt := natCmp_lt_iff.mp hxy
          cases hyz : natCmp y z with
          | gt => rw [hyz] at h2; exact Ordering.noConfusion h2
          | lt =>
            have hyzlt := natCmp_lt_iff.mp hyz
            have : natCmp x z = .lt := natCmp_lt_iff.mpr (by omega)
            rw [this]
          | eq =>
            have hyzeq := natCmp_eq_iff.mp hyz
            have : natCmp x z = .lt := natCmp_lt_iff.mpr (by omega)
            rw [this]
        | eq =>
          have hxyeq := natCmp_eq_iff.mp hxy
          rw [hxy] at h1
          cases hyz : natCmp y z with
          | gt => rw [hyz] at h2; exact Ordering.noConfusion h2
          | lt =>
            have hyzlt := natCmp_lt_iff.mp hyz
            have : natCmp x z = .lt := natCmp_lt_iff.mpr (by omega)
            rw [this]
          | eq =>
            have hyzeq := natCmp_eq_iff.mp hyz
            rw [hyz] at h2
            have : natCmp x z = .eq := natCmp_eq_iff.mpr (by omega)
            rw [this]
            exact ih ys zs h1 h2

theorem vcf_cmp_total :
    ∀ a b : VCFRecord, VCFRecord.vcf_cmp a b = .gt →
      VCFRecord.vcf_cmp b a ≠ .gt := by
  intro a b h
  unfold VCFRecord.vcf_cmp at h ⊢
  cases hab : bytesCmp a.chromosome b.chromosome with
  | lt => rw [hab] at h; exact Ordering.noConfusion h
  | eq =>
    rw [hab] at h
    have hba : bytesCmp b.chromosome a.chromosome = .eq :=
      (bytesCmp_eq_iff _ _).mpr ((bytesCmp_eq_iff _ _).mp hab).symm
    rw [hba]
    have hpos := intCmp_gt_iff.mp h
    have : intCmp b.position a.position = .lt := intCmp_lt_iff.mpr hpos
    rw [this]
    exact fun hh => Ordering.noConfusion hh
  | gt =>
    have hba : bytesCmp b.chromosome a.chromosome = .lt :=
      (bytesCmp_gt_iff_lt _ _).mp hab
    rw [hba]
    exact fun hh => Ordering.noConfusion hh

theorem vcf_cmp_trans :
    ∀ a b c : VCFRecord, VCFRecord.vcf_cmp a b ≠ .gt →
      VCFRecord.vcf_cmp b c ≠ .gt → VCFRecord.vcf_cmp a c ≠ .gt := by
  intro a b c h1 h2
  unfold VCFRecord.vcf_cmp at h1 h2 ⊢
  cases hab : bytesCmp a.chromosome b.chromosome with
  | gt => rw [hab] at h1; exact absurd rfl h1
  | lt =>
    have hablt := hab
    cases hbc : bytesCmp b.chromosome c.chromosome with
    | gt => rw [hbc] at h2; exact absurd rfl h2
    | lt =>
      have : bytesCmp a.chromosome c.chromosome = .lt :=
        bytesCmp_lt_trans _ _ _ hablt hbc
      rw [this]
      exact fun hh => Ordering.noConfusion hh
    | eq =>
      have hbceq := (bytesCmp_eq_iff _ _).mp hbc
      have : bytesCmp a.chromosome c.chromosome = .lt := by
        rw [← hbceq]; exact hablt
      rw [this]
      exact fun hh => Ordering.noConfusion hh
  | eq =>
    have habeq := (bytesCmp_eq_iff _ _).mp hab
    rw [hab] at h1
    cases hbc : bytesCmp b.chromosome c.chromosome with
    | gt => rw [hbc] at h2; exact absurd rfl h2
    | lt =>
      have : bytesCmp a.chromosome c.chromosome = .lt := by
        rw [habeq]; exact hbc
      rw [this]
      exact fun hh => Ordering.noConfusion hh
    | eq =>
      rw [hbc] at h2
      have hbceq := (bytesCmp_eq_iff _ _).mp hbc
      have hac : bytesCmp a.chromosome c.chromosome = .eq :=
        (bytesCmp_eq_iff _ _).mpr (habeq.trans hbceq)
      rw [hac]
      intro hh
      have h1' : ¬ (b.position < a.position) := fun hlt => h1 (intCmp_gt_iff.mpr hlt)
      have h2' : ¬ (c.position < b.position) := fun hlt => h2 (intCmp_gt_iff.mpr hlt)
      have hh' := intCmp_gt_iff.mp hh
      omega

/-- Counterexample to claim C3: three records at the same (name,
position), two of them identical, assembled from three per-bubble
variant maps.  The sort orders only by (name, position) and is stable,
and the dedup pass removes only consecutive duplicates, so the record
list [A, B, A] survives assembly with an exact duplicate remaining. -/
theorem sort_dedup_counterexample :
    assembleRecords (variant_vcf_record recMapA ++ variant_vcf_record recMapB ++
      variant_vcf_record recMapA) = [recA, recB, recA] ∧
    ¬ (assembleRecords (variant_vcf_record recMapA ++ variant_vcf_record recMapB ++
      variant_vcf_record recMapA)).Nodup := by
  refine ⟨by rfl, by decide⟩

/-! The bubble index: phase-1 scan characterization and last-occurrence
facts. -/

theorem alookup_vertex_map {β : Type} (f : Nat → β) :
    ∀ (vs : List Nat) (n : Nat), n ∈ vs →
    alookup (vs.map fun v => (v, f v)) n = some (f n) := by
  intro vs
  induction vs with
  | nil => intro n h; cases h
  | cons v rest ih =>
    intro n h
    simp only [List.map_cons, alookup]
    by_cases hv : v = n
    · rw [if_pos hv, hv]
    · rw [if_neg hv]
      rcases List.mem_cons.mp h with h2 | h2
      · exact absurd h2.symm hv
      · exact ih n h2

theorem alookup_enumL_filterMap {β : Type} (g : List PathStep → Option β) :
    ∀ (paths : List (List PathStep)) (k p : Nat),
    alookup ((enumL k paths).filterMap fun pp =>
        (g pp.2).map fun i => (pp.1, i)) p =
      if p < k then none else (paths.get? (p - k)).bind g := by
  intro paths
  induction paths with
  | nil =>
    intro k p
    simp only [enumL, List.filterMap_nil, alookup, List.get?_eq_getElem?,
      List.getElem?_nil, Option.none_bind]
    split <;> rfl
  | cons path rest ih =>
    intro k p
    simp only [enumL, List.filterMap_cons]
    cases hg : g path with
    | none =>
      simp only [Option.map_none']
      rw [ih (k + 1) p]
      by_cases h1 : p < k
      · rw [if_pos (by omega : p < k + 1), if_pos h1]
      · by_cases h2 : p = k
        · subst h2
          rw [if_pos (by omega : p < p + 1), if_neg (by omega : ¬ p < p)]
          have h3 : p - p = 0 := by omega
          rw [h3, List.get?_cons_zero, Option.some_bind, hg]
        · have h3 : ¬ (p < k + 1) := by omega
          rw [if_neg h3, if_neg h1]
          have h4 : p - k = (p - (k + 1)) + 1 := by omega
          rw [h4, List.get?_cons_succ]
    | some i =>
      simp only [Option.map_some', alookup]
      by_cases h2 : k = p
      · subst h2
        rw [if_pos rfl, if_neg (by omega : ¬ k < k)]
        have h3 : k - k = 0 := by omega
        rw [h3, List.get?_cons_zero, Option.some_bind, hg]
      · rw [if_neg h2, ih (k + 1) p]
        by_cases h1 : p < k
        · rw [if_pos (by omega : p < k + 1), if_pos h1]
        · have h3 : ¬ (p < k + 1) := by omega
          rw [if_neg h3, if_neg h1]
          have h4 : p - k = (p - (k + 1)) + 1 := by omega
          rw [h4, List.get?_cons_succ]

theorem alookup_pathScan (vs : List Nat) (n : Nat) :
    ∀ (path : List PathStep) (ix : Nat) (m : List (Nat × Nat)),
    alookup (pathScan vs path ix m) n =
      (if n ∈ vs then (lastOcc n path).map (fun j => ix + j) else none).or
        (alookup m n) := by
  intro path
  induction path with
  | nil =>
    intro ix m
    simp [pathScan, lastOcc, Option.none_or]
  | cons s rest ih =>
    intro ix m
    simp only [pathScan]
    rw [ih (ix + 1) _]
    cases hlo : lastOcc n rest with
    | some j =>
      have hcons : lastOcc n (s :: rest) = some (j + 1) := by
        simp [lastOcc, hlo]
      rw [hcons]
      by_cases hv : n ∈ vs
      · rw [if_pos hv, if_pos hv]
        simp only [Option.map_some', some_or]
        have harith : ix + 1 + j = ix + (j + 1) := by omega
        rw [harith]
      · rw [if_neg hv, if_neg hv]
        simp only [Option.none_or]
        by_cases hs : s.1 ∈ vs
        · rw [if_pos hs, alookup_assocSet,
            if_neg (show ¬ (s.1 = n) from fun hh => hv (hh ▸ hs))]
        · rw [if_neg hs]
    | none =>
      have hcons : lastOcc n (s :: rest) =
          (if s.1 = n then some 0 else none) := by
        simp [lastOcc, hlo]
      rw [hcons]
      by_cases hsn : s.1 = n
      · rw [if_pos hsn]
        by_cases hv : n ∈ vs
        · rw [if_pos hv, if_pos hv]
          simp only [Option.map_none', Option.none_or, Option.map_some',
            some_or]
          rw [if_pos (show s.1 ∈ vs by rw [hsn]; exact hv),
            alookup_assocSet, if_pos hsn]
          rfl
        · rw [if_neg hv, if_neg hv]
          simp only [Option.none_or]
          rw [if_neg (show ¬ (s.1 ∈ vs) from fun hh => hv (hsn ▸ hh))]
      · rw [if_neg hsn]
        by_cases hv : n ∈ vs
        · rw [if_pos hv, if_pos hv]
          simp only [Option.map_none', Option.none_or]
          by_cases hs : s.1 ∈ vs
          · rw [if_pos hs, alookup_assocSet, if_neg hsn]
          · rw [if_neg hs]
        · rw [if_neg hv, if_neg hv]
          simp only [Option.none_or]
          by_cases hs : s.1 ∈ vs
          · rw [if_pos hs, alookup_assocSet, if_neg hsn]
          · rw [if_neg hs]

theorem lastOcc_isSome_iff (n : Nat) :
    ∀ path : List PathStep,
    (lastOcc n path).isSome = true ↔ ∃ s ∈ path, s.1 = n := by
  intro path
  induction path with
  | nil => simp [lastOcc]
  | cons s rest ih =>
    simp only [lastOcc]
    cases hlo : lastOcc n rest with
    | some j =>
      simp only [Option.isSome_some, true_iff]
      rcases ih.mp (by rw [hlo]; rfl) with ⟨t, ht, htn⟩
      exact ⟨t, List.mem_cons.mpr (Or.inr ht), htn⟩
    | none =>
      by_cases hsn : s.1 = n
      · simp only [if_pos hsn, Option.isSome_some, true_iff]
        exact ⟨s, List.mem_cons_self s rest, hsn⟩
      · simp only [if_neg hsn, Option.isSome_none, Bool.false_eq_true, false_iff]
        rintro ⟨t, ht, htn⟩
        rcases List.mem_cons.mp ht with rfl | ht2
        · exact hsn htn
        · have h2 : (lastOcc n rest).isSome = true := ih.mpr ⟨t, ht2, htn⟩
          rw [hlo] at h2
          exact Bool.noConfusion h2

theorem lastOcc_spec (n : Nat) :
    ∀ (path : List PathStep) (j : Nat), lastOcc n path = some j →
      (∃ s, path.get? j = some s ∧ s.1 = n) ∧
      ∀ k s', path.get? k = some s' → s'.1 = n → k ≤ j := by
  intro path
  induction path with
  | nil =>
    intro j h
    simp [lastOcc] at h
  | cons s rest ih =>
    intro j h
    simp only [lastOcc] at h
    cases hlo : lastOcc n rest with
    | some j' =>
      rw [hlo] at h
      injection h with h
      obtain ⟨⟨t, htg, htn⟩, hmax⟩ := ih j' hlo
      constructor
      · refine ⟨t, ?_, htn⟩
        rw [← h, List.get?_cons_succ]
        exact htg
      · intro k s' hk hs'
        cases k with
        | zero => omega
        | succ k' =>
          rw [List.get?_cons_succ] at hk
          have := hmax k' s' hk hs'
          omega
    | none =>
      rw [hlo] at h
      by_cases hsn : s.1 = n
      · rw [if_pos hsn] at h
        injection h with h
        constructor
        · exact ⟨s, by rw [← h, List.get?_cons_zero], hsn⟩
        · intro k s' hk hs'
          cases k with
          | zero => omega
          | succ k' =>
            rw [List.get?_cons_succ] at hk
            exfalso
            have h2 : (lastOcc n rest).isSome = true :=
              (lastOcc_isSome_iff n rest).mpr ⟨s', List.get?_mem hk, hs'⟩
            rw [hlo] at h2
            exact Bool.noConfusion h2
      · rw [if_neg hsn] at h
        exact Option.noConfusion h

theorem bpiLookup_eq_lastOcc (paths : List (List PathStep)) (vs : List Nat)
    (n p : Nat) (hv : n ∈ vs) :
    bpiLookup (bubble_path_indices paths vs) n p =
      (paths.get? p).bind fun path => lastOcc n path := by
  unfold bpiLookup bubble_path_indices
  rw [alookup_vertex_map
    (fun n' => (enumL 0 paths).filterMap fun pp =>
      (alookup (pathNodeIndices vs pp.2) n').map fun i => (pp.1, i)) vs n hv]
  rw [Option.some_bind]
  rw [alookup_enumL_filterMap (fun path => alookup (pathNodeIndices vs path) n)
    paths 0 p]
  rw [if_neg (by omega : ¬ p < 0)]
  have h0 : p - 0 = p := by omega
  rw [h0]
  cases hp : paths.get? p with
  | none => rfl
  | some path =>
    rw [Option.some_bind, Option.some_bind]
    unfold pathNodeIndices
    rw [alookup_pathScan vs n path 0 []]
    rw [if_pos hv]
    have hnil : alookup ([] : List (Nat × Nat)) n = none := rfl
    rw [hnil, Option.or_none]
    cases lastOcc n path with
    | none => simp only [Option.map_none']
    | some j =>
      simp only [Option.map_some']
      have harith : 0 + j = j := by omega
      rw [harith]

/-- Claim C4: the bubble index contains an entry for boundary node n and
path p exactly when path p traverses n, and the recorded step index is
the last occurrence of n in the path (the phase-1 collect overwrites
earlier occurrences). -/
theorem bubble_index_characterization
    (paths : List (List PathStep)) (vs : List Nat) (n p : Nat)
    (hv : n ∈ vs) :
    (∀ path, paths.get? p = some path →
       (((bpiLookup (bubble_path_indices paths vs) n p).isSome = true) ↔
         ∃ s ∈ path, s.1 = n) ∧
       (∀ i, bpiLookup (bubble_path_indices paths vs) n p = some i →
         (∃ s, path.get? i = some s ∧ s.1 = n) ∧
         ∀ j s', path.get? j = some s' → s'.1 = n → j ≤ i)) ∧
    (paths.get? p = none →
       bpiLookup (bubble_path_indices paths vs) n p = none) := by
  have hkey := bpiLookup_eq_lastOcc paths vs n p hv
  constructor
  · intro path hp
    rw [hkey, hp, Option.some_bind]
    constructor
    · exact lastOcc_isSome_iff n path
    · intro i hi
      exact lastOcc_spec n path i hi
  · intro hp
    rw [hkey, hp]
    rfl

/-- Witness for claim C4: in the example graph, boundary node 1 is a
member of the boundary set and path r traverses it, so the index has an
entry for (1, path 0). -/
theorem bubble_index_characterization_witness :
    (1 ∈ [1, 3]) ∧
    (((bpiLookup (bubble_path_indices exPathData.paths [1, 3]) 1 0).isSome = true) ↔
      ∃ s ∈ exP0, s.1 = 1) :=
  ⟨by decide,
   ((bubble_index_characterization exPathData.paths [1, 3] 1 0
      (by decide)).1 exP0 (by rfl)).1⟩

theorem mem_enumL {α : Type} :
    ∀ (l : List α) (k q : Nat) (x : α),
    (q, x) ∈ enumL k l ↔ k ≤ q ∧ l.get? (q - k) = some x := by
  intro l
  induction l with
  | nil =>
    intro k q x
    simp [enumL]
  | cons y ys ih =>
    intro k q x
    simp only [enumL, List.mem_cons]
    constructor
    · intro h
      rcases h with h | h
      · have h1 : q = k := congrArg Prod.fst h
        have h2 : x = y := congrArg Prod.snd h
        subst h1
        subst h2
        refine ⟨Nat.le_refl q, ?_⟩
        have h3 : q - q = 0 := by omega
        rw [h3, List.get?_cons_zero]
      · obtain ⟨h1, h2⟩ := (ih (k + 1) q x).mp h
        refine ⟨by omega, ?_⟩
        have h3 : q - k = (q - (k + 1)) + 1 := by omega
        rw [h3, List.get?_cons_succ]
        exact h2
    · rintro ⟨h1, h2⟩
      by_cases hqk : q = k
      · subst hqk
        left
        have h3 : q - q = 0 := by omega
        rw [h3, List.get?_cons_zero] at h2
        injection h2 with h2
        rw [h2]
      · right
        apply (ih (k + 1) q x).mpr
        refine ⟨by omega, ?_⟩
        have h3 : q - k = (q - (k + 1)) + 1 := by omega
        rw [h3, List.get?_cons_succ] at h2
        exact h2

/-- Claim C5: the sub-path extractor yields a sub-path for exactly those
paths having index entries for both boundary nodes; each yielded
sub-path is the inclusive slice between the two recorded indices in
either order, and slices of length at most two are discarded.  When a
boundary node has no entry in the bubble index at all, the whole
extraction returns none. -/
theorem sub_path_extractor_spec (pd : PathData)
    (idx : List (Nat × List (Nat × Nat))) (f t : Nat) :
    (path_data_sub_paths pd idx f t = none ↔
       alookup idx f = none ∨ alookup idx t = none) ∧
    (∀ l, path_data_sub_paths pd idx f t = some l →
       ∀ fIdx tIdx, alookup idx f = some fIdx → alookup idx t = some tIdx →
       ∀ p sub, ((p, sub) ∈ l ↔
         ∃ path fi ti, pd.paths.get? p = some path ∧
           alookup fIdx p = some fi ∧ alookup tIdx p = some ti ∧
           sub = sliceIncl path (min fi ti) (max fi ti) ∧
           2 < sub.length)) := by
  constructor
  · unfold path_data_sub_paths
    cases hf : alookup idx f with
    | none => simp
    | some fIdx =>
      cases ht : alookup idx t with
      | none => simp
      | some tIdx => simp
  · intro l h fIdx tIdx hf ht p sub
    unfold path_data_sub_paths at h
    rw [hf, ht] at h
    simp only [Option.bind_eq_bind, Option.some_bind, Option.some.injEq] at h
    subst h
    constructor
    · intro hmem
      rcases List.mem_filterMap.mp hmem with ⟨pp, hppmem, hppeq⟩
      obtain ⟨q, path⟩ := pp
      obtain ⟨hq0, hqget⟩ := (mem_enumL pd.paths 0 q path).mp hppmem
      cases hfi : alookup fIdx q with
      | none =>
        rw [hfi] at hppeq
        simp only [Option.bind_eq_bind, Option.none_bind] at hppeq
        exact Option.noConfusion hppeq
      | some fi =>
      rw [hfi] at hppeq
      simp only [Option.bind_eq_bind, Option.some_bind] at hppeq
      cases hti : alookup tIdx q with
      | none =>
        rw [hti] at hppeq
        simp only [Option.bind_eq_bind, Option.none_bind] at hppeq
        exact Option.noConfusion hppeq
      | some ti =>
      rw [hti] at hppeq
      simp only [Option.bind_eq_bind, Option.some_bind] at hppeq
      by_cases hlen : 2 < (sliceIncl path (min fi ti) (max fi ti)).length
      · rw [if_pos hlen] at hppeq
        injection hppeq with hppeq
        have hqp : q = p := congrArg Prod.fst hppeq
        have hsl : sliceIncl path (min fi ti) (max fi ti) = sub :=
          congrArg Prod.snd hppeq
        subst hqp
        refine ⟨path, fi, ti, ?_, hfi, hti, hsl.symm, ?_⟩
        · have h4 : q - 0 = q := by omega
          rw [h4] at hqget
          exact hqget
        · rw [← hsl]
          exact hlen
      · rw [if_neg hlen] at hppeq
        exact Option.noConfusion hppeq
    · rintro ⟨path, fi, ti, hget, hfi, hti, hsub, hlen⟩
      apply List.mem_filterMap.mpr
      refine ⟨(p, path), ?_, ?_⟩
      · apply (mem_enumL pd.paths 0 p path).mpr
        refine ⟨Nat.zero_le p, ?_⟩
        have h4 : p - 0 = p := by omega
        rw [h4]
        exact hget
      · simp only [hfi, hti, Option.bind_eq_bind, Option.some_bind]
        rw [hsub] at hlen
        rw [if_pos hlen, hsub]

/-- Witness for claim C5: at the example bubble (1, 3) the extractor
yields all three length-3 sub-paths, and the membership of path r's
sub-path is certified by the characterization. -/
theorem sub_path_extractor_spec_witness :
    path_data_sub_paths exPathData exIdx 1 3 =
      some [(0, exP0), (1, exP1), (2, exP2)] ∧
    ((0, exP0) ∈ [(0, exP0), (1, exP1), (2, exP2)] ↔
      ∃ path fi ti, exPathData.paths.get? 0 = some path ∧
        alookup [(0, 0), (1, 0), (2, 0)] 0 = some fi ∧
        alookup [(0, 2), (1, 2), (2, 2)] 0 = some ti ∧
        exP0 = sliceIncl path (min fi ti) (max fi ti) ∧
        2 < exP0.length) :=
  ⟨by rfl,
   (sub_path_extractor_spec exPathData exIdx 1 3).2
     [(0, exP0), (1, exP1), (2, exP2)] (by rfl)
     [(0, 0), (1, 0), (2, 0)] [(0, 2), (1, 2), (2, 2)]
     (by rfl) (by rfl) 0 exP0⟩

/-- Claim C3 (amended): the assembled record list is sorted by
(reference name, position) — byte-wise name comparison then numeric
position comparison — and contains no two ADJACENT equal records: the
Vec dedup pass removes only consecutive duplicates, so two exact
duplicates separated by a different record at the same (name, position)
both survive. -/
theorem records_sorted_and_adjacent_deduped :
    ∀ recs : List VCFRecord,
    (assembleRecords recs).Pairwise
      (fun a b => VCFRecord.vcf_cmp a b ≠ .gt) ∧
    List.Chain' (fun a b => ¬ (a = b)) (assembleRecords recs) := by
  intro recs
  constructor
  · exact List.Pairwise.sublist
      (dedupAdjBy_sublist (fun a b => decide (a = b)) (sortC VCFRecord.vcf_cmp recs))
      (pairwise_sortC VCFRecord.vcf_cmp vcf_cmp_total vcf_cmp_trans recs)
  · exact chain_ne_dedupAdjBy (fun a b => decide (a = b))
      (fun a b => by simp) (sortC VCFRecord.vcf_cmp recs)

end GfaUtils
